import Mathlib

/-!
Verification of the version update/validate engine of `scripts/versions.py`.

The script's core (`process_file_version`) compiles, for each `RegexPattern`,
a two-group Python regex `({anchor})({version_regex})`, matches it against each
line of a file (`re.Pattern.match`, i.e. anchored at position 0), and either

  * update mode: rewrites the line with `pattern.sub("\\g<1>{version}", line)`, or
  * validate mode: records the pattern as matched when `match.group(2)` equals
    the pattern's expected version string.

Every regex that the script ever builds (the two catalogs
`EXTENSION_REGEX_PATTERNS` / `DEPENDENCY_REGEX_PATTERNS`, after template
substitution with `re.escape`d names, together with the three version regexes)
uses only this fragment of Python regex syntax:

  `^`, `$`, literal characters (possibly backslash-escaped), the classes
  `[\s\S]`, `[0-9]`, `[1-9]`, `["']`, the dot `.`, and the postfix
  quantifiers `*` and `+` applied to a single-character class.

The embedding below implements exactly this fragment with Python semantics:
leftmost match with greedy quantifiers and full backtracking, `^` matching only
at position 0 (no MULTILINE), `$` matching at the end of the string or just
before a trailing newline, `.` matching anything but a newline, `\s` matching
ASCII whitespace.  Regex source strings are compiled to atom lists by
`compileRegex`; the two capture groups of `({anchor})({version})` are modelled
by matching the two compiled parts in sequence (`pyMatchTwo`), which is exact
because no generated pattern contains any other capturing group.
-/

namespace Versions

/-- Character classes occurring in the regexes generated by versions.py:
`[\s\S]` (any), `[0-9]`, `[1-9]`, `\s` (Python ASCII whitespace), `.`
(anything but newline), `["']`. -/
inductive CC where
  | any
  | digit
  | nonzero
  | ws
  | notNl
  | quote
  deriving DecidableEq, Repr

/-- Python whitespace characters matched by `\s` (ASCII range). -/
def wsChar (c : Char) : Bool :=
  c = ' ' || c = '\t' || c = '\n' || c = '\r' || c = '\x0b' || c = '\x0c'

def CC.mem : CC → Char → Bool
  | .any, _ => true
  | .digit, c => '0' ≤ c && c ≤ '9'
  | .nonzero, c => '1' ≤ c && c ≤ '9'
  | .ws, c => wsChar c
  | .notNl, c => c ≠ '\n'
  | .quote, c => c = '"' || c = '\''

/-- One atom of a compiled regex: `^`, `$`, a literal string, a single
character class, or a greedy star / plus of a character class.  Every regex
built by versions.py compiles to a list of these. -/
inductive Atom where
  | bol
  | eol
  | lit (s : List Char)
  | cls (c : CC)
  | starC (c : CC)
  | plusC (c : CC)
  deriving DecidableEq, Repr

/-- Length of the maximal prefix of `s` whose characters are all in class `c`
(what a greedy `c*` consumes before backtracking). -/
def runLen (c : CC) (s : List Char) : Nat :=
  (s.takeWhile c.mem).length

/-- Backtracking helper for greedy `*`/`+`: try consuming `n` characters
first, then `n - 1`, ..., down to `0`; first success wins.  `f` receives the
remaining input and its absolute position. -/
def tryStar (f : List Char → Nat → Option α) (s : List Char) (pos : Nat) :
    Nat → Option α
  | 0 => f s pos
  | n + 1 => (f (s.drop (n + 1)) (pos + n + 1)) <|> tryStar f s pos n

/-- Backtracking matcher for an atom list, continuation-passing style.
`matchSeq atoms s pos k` tries to match `atoms` against a prefix of `s`
(which sits at absolute position `pos` of the subject string) and calls the
continuation `k` with the remainder and its position; the first success in
Python's backtracking order is returned.  Greedy quantifiers try the longest
run first (`tryStar`), `^` succeeds only at position 0 and `$` only at the end
of the subject or just before a trailing newline. -/
def matchSeq : List Atom → List Char → Nat → (List Char → Nat → Option α) →
    Option α
  | [], s, pos, k => k s pos
  | .bol :: rest, s, pos, k =>
      if pos = 0 then matchSeq rest s pos k else none
  | .eol :: rest, s, pos, k =>
      if s = [] ∨ s = ['\n'] then matchSeq rest s pos k else none
  | .lit t :: rest, s, pos, k =>
      if t.isPrefixOf s then matchSeq rest (s.drop t.length) (pos + t.length) k
      else none
  | .cls c :: rest, s, pos, k =>
      match s with
      | [] => none
      | a :: s' => if c.mem a then matchSeq rest s' (pos + 1) k else none
  | .starC c :: rest, s, pos, k =>
      tryStar (fun s' p' => matchSeq rest s' p' k) s pos (runLen c s)
  | .plusC c :: rest, s, pos, k =>
      match s with
      | [] => none
      | a :: s' =>
          if c.mem a then
            tryStar (fun s'' p'' => matchSeq rest s'' p'' k) s' (pos + 1)
              (runLen c s')
          else none

/-- Model of matching the two-group pattern `({anchor})({version})` with
`re.Pattern.match` (anchored at position 0): returns the end position of
group 1 and the end position of group 2 on success, in Python's
leftmost-greedy backtracking order. -/
def pyMatchTwo (anchor version : List Atom) (s : List Char) :
    Option (Nat × Nat) :=
  matchSeq anchor s 0 fun s1 p1 =>
    matchSeq version s1 p1 fun _ p2 => some (p1, p2)

/-! ### Compiling regex source strings

The regex strings that versions.py passes to `re.compile` are translated to
`List Atom` by a small compiler for the fragment they use.  Unsupported syntax
yields `none`; every string the script actually generates compiles. -/

/-- A lexed regex element before literal runs are merged. -/
inductive RElem where
  | bolE
  | eolE
  | lchar (c : Char)
  | clsE (c : CC)
  deriving DecidableEq, Repr

/-- Quantifier attached to a lexed element. -/
inductive RQuant where
  | one
  | star
  | plus
  deriving DecidableEq, Repr

/-- Parse a bracketed character class; the input starts just after `[`.
Only the class bodies generated by versions.py are recognized:
`[\s\S]`, `[0-9]`, `[1-9]`, `["']`. -/
def parseClass : List Char → Option (CC × List Char)
  | '\\' :: 's' :: '\\' :: 'S' :: ']' :: rest => some (.any, rest)
  | '0' :: '-' :: '9' :: ']' :: rest => some (.digit, rest)
  | '1' :: '-' :: '9' :: ']' :: rest => some (.nonzero, rest)
  | '"' :: '\'' :: ']' :: rest => some (.quote, rest)
  | _ => none

/-- Characters that may not appear bare in the supported fragment (they would
mean grouping, alternation or bounded repetition in Python). -/
def bareMeta (c : Char) : Bool :=
  c = '(' || c = ')' || c = '|' || c = '?' || c = '*' || c = '+' ||
  c = '[' || c = ']' || c = '\x7b' || c = '\x7d'

/-- Lex one regex source string into elements with their quantifiers.
`fuel` bounds recursion (the input length suffices). -/
def lexRE : Nat → List Char → Option (List (RElem × RQuant))
  | _, [] => some []
  | 0, _ => none
  | fuel + 1, c :: rest =>
    let step : Option (RElem × List Char) :=
      match c, rest with
      | '^', r => some (.bolE, r)
      | '$', r => some (.eolE, r)
      | '.', r => some (.clsE .notNl, r)
      | '[', r => (parseClass r).map fun (cc, r') => (.clsE cc, r')
      | '\\', e :: r => if e = 's' then some (.clsE .ws, r)
                        else if e.isAlphanum then none
                        else some (.lchar e, r)
      | '\\', [] => none
      | c', r => if bareMeta c' then none else some (.lchar c', r)
    match step with
    | none => none
    | some (el, r) =>
      match r with
      | '*' :: r' => (lexRE fuel r').map fun es => (el, .star) :: es
      | '+' :: r' => (lexRE fuel r').map fun es => (el, .plus) :: es
      | _ => (lexRE fuel r).map fun es => (el, .one) :: es

/-- Merge lexed elements into atoms, fusing runs of unquantified literal
characters into `Atom.lit`; quantifiers are only supported on single-character
classes (the only place versions.py uses them). -/
def assembleRE : List (RElem × RQuant) → Option (List Atom)
  | [] => some []
  | (.lchar c, .one) :: rest =>
    (assembleRE rest).map fun as =>
      match as with
      | .lit t :: as' => .lit (c :: t) :: as'
      | _ => .lit [c] :: as
  | (.clsE cc, q) :: rest =>
    (assembleRE rest).map fun as =>
      match q with
      | .one => .cls cc :: as
      | .star => .starC cc :: as
      | .plus => .plusC cc :: as
  | (.bolE, .one) :: rest => (assembleRE rest).map (.bol :: ·)
  | (.eolE, .one) :: rest => (assembleRE rest).map (.eol :: ·)
  | _ => none

/-- Compile a regex source string of the supported fragment to an atom list. -/
def compileRegex (s : String) : Option (List Atom) :=
  (lexRE (s.data.length + 1) s.data).bind assembleRE

/-! ### Python string primitives used by versions.py -/

/-- Model of `str.lower` for the ASCII strings the script handles. -/
def pyLower (s : String) : String :=
  ⟨s.data.map Char.toLower⟩

/-- Model of `str.startswith` (structurally reducing, unlike
`String.startsWith`). -/
def pyStartsWith (s pre : String) : Bool :=
  pre.data.isPrefixOf s.data

/-- Dropping the first `n` characters of a string (structurally reducing,
unlike `String.drop`). -/
def pyDrop (n : Nat) (s : String) : String :=
  ⟨s.data.drop n⟩

/-- Model of `str.strip()` (strip whitespace from both ends). -/
def pyStrip (s : String) : String :=
  ⟨((s.data.dropWhile wsChar).reverse.dropWhile wsChar).reverse⟩

/-- Model of `str.split(sep)` for a one-character separator. -/
def pySplitOn (sep : Char) (s : List Char) : List (List Char) :=
  s.splitOn sep

/-- Model of `str.split()` (split on whitespace runs, dropping empty parts). -/
def pySplitWs (s : List Char) : List (List Char) :=
  (s.splitOnP wsChar).filter (· ≠ [])

/-- Model of `str.split(sep, 1)`: the part before the first `sep`, and the
part after it when `sep` occurs. -/
def pySplitFirst (sep : Char) (s : List Char) : List Char × Option (List Char) :=
  if s.contains sep then (s.takeWhile (· ≠ sep), some ((s.dropWhile (· ≠ sep)).drop 1))
  else (s, none)

/-- Characters escaped by `re.escape` (Python 3.7+ `_special_chars_map`). -/
def reEscapeSpecial (c : Char) : Bool :=
  c ∈ ['(', ')', '[', ']', '\x7b', '\x7d', '?', '*', '+', '-', '|', '^', '$',
       '\\', '.', '&', '~', '#', ' ', '\t', '\n', '\r', '\x0b', '\x0c']

/-- Model of `re.escape`. -/
def re_escape (s : String) : String :=
  ⟨s.data.flatMap fun c => if reEscapeSpecial c then ['\\', c] else [c]⟩

/-- Drop a template placeholder key up to and including the closing brace. -/
def dropTemplateKey : List Char → List Char
  | [] => []
  | '\x7d' :: r => r
  | _ :: r => dropTemplateKey r

/-- Model of `string.Template(tmpl).substitute(key=value)` for the templates
of versions.py, each of which contains exactly one placeholder written with
the dollar-brace syntax. -/
def templateGo (v : List Char) : List Char → List Char
  | [] => []
  | c :: r =>
    if c = '$' ∧ r.head? = some '\x7b' then v ++ dropTemplateKey (r.drop 1)
    else c :: templateGo v r

def templateSubst (tmpl value : String) : String :=
  ⟨templateGo value.data tmpl.data⟩

/-! ### Translation of the versions.py data model and pattern generators -/

/-- Fatal error raised through `error_exit` (which prints an error annotation
and terminates the process with exit status 1). -/
structure ExitErr where
  title : String
  message : String
  deriving DecidableEq, Repr

/-- Source constant `VERSION_REGEX = r"[0-9]+\.[0-9]+\.[0-9]+"`. -/
def VERSION_REGEX : String := "[0-9]+\\.[0-9]+\\.[0-9]+"

/-- Source constant `TEST_VERSION_REGEX = r"[1-9]+\.[0-9]+\.[0-9]+"`. -/
def TEST_VERSION_REGEX : String := "[1-9]+\\.[0-9]+\\.[0-9]+"

/-- Source constant `REST_OF_LINE_REGEX = r".*$"`. -/
def REST_OF_LINE_REGEX : String := ".*$"

/-- Source function `lowercase_first_char`:
`s[:1].lower() + s[1:] if s else s`. -/
def lowercase_first_char (s : String) : String :=
  match s.data with
  | [] => s
  | c :: rest => ⟨c.toLower :: rest⟩

/-- Source function `get_ios_repo_name`: the five Core dependencies map to the
Core repo URL; other `AEP`-prefixed names map to
`https://github.com/adobe/aepsdk-<suffix lowercased>-ios.git`; any other name
is a fatal `error_exit`. -/
def get_ios_repo_name (name : String) : Except ExitErr String :=
  if name ∈ ["AEPCore", "AEPIdentity", "AEPLifecycle", "AEPServices", "AEPSignal"] then
    .ok "https://github.com/adobe/aepsdk-core-ios.git"
  else if pyStartsWith name "AEP" then
    .ok ("https://github.com/adobe/aepsdk-" ++ pyLower (pyDrop 3 name) ++ "-ios.git")
  else
    .error ⟨"Unknown dependency", "Unknown dependency name. Cannot construct iOS repo URL."⟩

/-- Source function `gradle_properties_template`: substitutes the
`re.escape`d name into the raw template
`^[\s\S]*maven${dependency_name}Version\s*=\s*`. -/
def gradle_properties_template (name : String) : String :=
  templateSubst "^[\\s\\S]*maven${dependency_name}Version\\s*=\\s*" (re_escape name)

/-- Source function `gradle_properties_core_template`: lowercases the first
character of the name, escapes it, and substitutes into
`^[\s\S]*${dependency_name}ExtensionVersion\s*=\s*`. -/
def gradle_properties_core_template (name : String) : String :=
  templateSubst "^[\\s\\S]*${dependency_name}ExtensionVersion\\s*=\\s*"
    (re_escape (lowercase_first_char name))

/-- Source function `swift_spm_template`: resolves the iOS repo URL (which may
`error_exit`), escapes it, and substitutes into
`^[\s\S]*\.package\(\s*url:\s*"${dependency_url}"\s*,\s*\.upToNextMajor\(\s*from:\s*"`. -/
def swift_spm_template (name : String) : Except ExitErr String := do
  let url ← get_ios_repo_name name
  return templateSubst
    "^[\\s\\S]*\\.package\\(\\s*url:\\s*\"${dependency_url}\"\\s*,\\s*\\.upToNextMajor\\(\\s*from:\\s*\""
    (re_escape url)

/-- Source function `podspec_template`: substitutes the escaped name into
`^[\s\S]*s\.dependency\s*["']${dependency_name}["']\s*,\s*["']>=\s*`. -/
def podspec_template (name : String) : String :=
  templateSubst "^[\\s\\S]*s\\.dependency\\s*[\"']${dependency_name}[\"']\\s*,\\s*[\"']>=\\s*"
    (re_escape name)

/-- Source function `yml_uses_template`: substitutes the escaped name into
`^[\s\S]*uses:\s*${dependency_name}@`. -/
def yml_uses_template (name : String) : String :=
  templateSubst "^[\\s\\S]*uses:\\s*${dependency_name}@" (re_escape name)

/-- The `pattern_template` field of `RegexTemplate`: either a static regex
string or a callable producing one from a dependency name (possibly
`error_exit`ing, as `swift_spm_template` does). -/
inductive PatternTemplate where
  | static (s : String)
  | dyn (f : String → Except ExitErr String)

/-- Source dataclass `RegexTemplate`. -/
structure RegexTemplate where
  description : String
  pattern_template : PatternTemplate
  version : Option String := none
  version_pattern : Option String := none

/-- Source dataclass `RegexPattern` (frozen, hence hashable and compared by
field equality when used in sets). -/
structure RegexPattern where
  description : String
  pattern : String
  version : Option String := none
  version_pattern : Option String := none
  deriving DecidableEq, Repr

/-- Source method `RegexTemplate.generate_pattern`: static templates are
returned verbatim; callable templates require a non-empty name
(`if not dependency_name: error_exit(...)`) and otherwise apply the callable. -/
def generate_pattern (t : RegexTemplate) (dependency_name : Option String) :
    Except ExitErr String :=
  match t.pattern_template with
  | .static s => .ok s
  | .dyn f =>
    match dependency_name with
    | none => .error ⟨"Name required", "Name is required for dynamic pattern generation."⟩
    | some n =>
      if n = "" then .error ⟨"Name required", "Name is required for dynamic pattern generation."⟩
      else f n

/-- Source dictionary `EXTENSION_REGEX_PATTERNS`, keyed by file extension or
pattern type. -/
def EXTENSION_REGEX_PATTERNS : List (String × List RegexTemplate) :=
  [(".properties",
    [⟨"moduleVersion", .static "^[\\s\\S]*moduleVersion\\s*=\\s*", none, none⟩]),
   ("properties_multi_module",
    [⟨"<library>ExtensionVersion (ex: coreExtensionVersion)",
      .dyn (fun n => .ok (gradle_properties_core_template n)), none, none⟩]),
   (".java",
    [⟨"EXTENSION_VERSION", .static "^[\\s\\S]*String EXTENSION_VERSION\\s*=\\s*\"", none, none⟩]),
   (".kt",
    [⟨"VERSION", .static "^[\\s\\S]*const val VERSION\\s*=\\s*\"", none, none⟩]),
   (".pbxproj",
    [⟨"MARKETING_VERSION", .static "^[\\s\\S]*MARKETING_VERSION = ", none, none⟩]),
   (".podspec",
    [⟨"s.version", .static "^[\\s\\S]*s\\.version\\s*=\\s*\"", none, none⟩]),
   (".swift",
    [⟨"EXTENSION_VERSION", .static "^[\\s\\S]*static let EXTENSION_VERSION\\s*=\\s*\"", none, none⟩]),
   ("swift_version_number",
    [⟨"VERSION_NUMBER", .static "^[\\s\\S]*static let VERSION_NUMBER\\s*=\\s*\"", none, none⟩]),
   ("swift_test_version",
    [⟨"version", .static "^[\\s\\S]*\\\"version\\\"\\s*:\\s*\"", none, some TEST_VERSION_REGEX⟩])]

/-- Source dictionary `DEPENDENCY_REGEX_PATTERNS`. -/
def DEPENDENCY_REGEX_PATTERNS : List (String × List RegexTemplate) :=
  [(".properties",
    [⟨"maven<dependencyName>Version (ex: mavenCoreVersion)",
      .dyn (fun n => .ok (gradle_properties_template n)), none, none⟩]),
   ("properties_multi_module",
    [⟨"<library>ExtensionVersion (ex: coreExtensionVersion)",
      .dyn (fun n => .ok (gradle_properties_core_template n)), none, none⟩]),
   ("swift_spm",
    [⟨".upToNextMajor(from:)", .dyn swift_spm_template, none, none⟩]),
   (".podspec",
    [⟨"s.dependency", .dyn (fun n => .ok (podspec_template n)), none, none⟩]),
   ("yml_uses",
    [⟨"uses:", .dyn (fun n => .ok (yml_uses_template n)), none, some REST_OF_LINE_REGEX⟩])]

/-! ### The line matching/rewriting engine (`process_file_version`)

For each `RegexPattern` the source compiles
`re.compile(f"({pattern})({version_pattern or VERSION_REGEX})")` and matches
it against each line.  Lines come from `readlines()`, so every line except
possibly the last ends with a newline character. -/

/-- Python rendering of the version field inside an f-string
(`f"\g<1>{version}"`): `None` prints as `"None"`. -/
def pyStr : Option String → String
  | none => "None"
  | some s => s

/-- Compiled first group of a pattern's two-group regex. -/
def anchorAtoms (rp : RegexPattern) : Option (List Atom) :=
  compileRegex rp.pattern

/-- Compiled second group: `regex_pattern.version_pattern or VERSION_REGEX`. -/
def versionAtoms (rp : RegexPattern) : Option (List Atom) :=
  compileRegex (rp.version_pattern.getD VERSION_REGEX)

/-- Match one pattern's two-group regex against a line
(`pattern.match(line)`); `none` when the pattern does not compile in the
supported fragment (never the case for patterns the script generates). -/
def lineMatchPair (rp : RegexPattern) (line : List Char) : Option (Nat × Nat) :=
  match anchorAtoms rp, versionAtoms rp with
  | some a, some v => pyMatchTwo a v line
  | _, _ => none

/-- Scanning loop of `re.Pattern.sub` for a two-group pattern with
replacement `\g<1>{newV}`: at each position try a match; on success emit
group 1 followed by `newV` and resume after the match (advancing one
character after a zero-width match, which no generated pattern produces);
on failure emit one character and advance.  The version text is inserted
literally: backslash replacement escapes inside the interpolated version
are not modelled, so facts about updates carry a no-backslash hypothesis
where the version is arbitrary.  `fuel` bounds recursion (input length
suffices). -/
def subScan (a v : List Atom) (newV : List Char) :
    Nat → List Char → Nat → List Char
  | 0, s, _ => s
  | fuel + 1, s, pos =>
    match matchSeq a s pos fun s1 p1 =>
            matchSeq v s1 p1 fun _ p2 => some (p1, p2) with
    | some (p1, p2) =>
      if pos < p2 then
        s.take (p1 - pos) ++ newV ++ subScan a v newV fuel (s.drop (p2 - pos)) p2
      else
        match s with
        | [] => newV
        | c :: rest => newV ++ c :: subScan a v newV fuel rest (pos + 1)
    | none =>
      match s with
      | [] => []
      | c :: rest => c :: subScan a v newV fuel rest (pos + 1)

/-- Model of `pattern.sub(f"\g<1>{version}", line)` for the two-group
pattern `({a})({v})`. -/
def pySubTwo (a v : List Atom) (newV line : List Char) : List Char :=
  subScan a v newV (line.length + 1) line 0

/-- Update-mode handling of one line (source lines 793-818): each pattern is
matched against the original line, and each match recomputes `replaced_line`
as `pattern.sub(f"\g<1>{version}", line)` — from the original line, so the
last matching pattern in list order wins. -/
def updateLine (patterns : List RegexPattern) (line : List Char) : List Char :=
  patterns.foldl
    (fun replaced rp =>
      match anchorAtoms rp, versionAtoms rp with
      | some a, some v =>
        match pyMatchTwo a v line with
        | some _ => pySubTwo a v (pyStr rp.version).data line
        | none => replaced
      | _, _ => replaced)
    line

/-- Validate-mode handling of one line and one pattern: the pattern is
recorded as matched exactly when the two-group regex matches and
`match.group(2) == regex_pattern.version`. -/
def lineMatched (rp : RegexPattern) (line : List Char) : Bool :=
  match lineMatchPair rp line with
  | some (p1, p2) => rp.version = some ⟨(line.take p2).drop p1⟩
  | none => false

/-- All patterns recorded in `matched_patterns` over a whole file, in the
source's append order (outer loop over lines, inner loop over patterns). -/
def matchedPatterns (patterns : List RegexPattern) (content : List (List Char)) :
    List RegexPattern :=
  content.foldl (fun acc line => acc ++ patterns.filter (fun rp => lineMatched rp line)) []

/-- Source `unmatched_patterns = set(patterns) - set(matched_patterns)`,
as the sublist of patterns that never matched (set-membership is dataclass
field equality). -/
def unmatchedPatterns (patterns : List RegexPattern) (content : List (List Char)) :
    List RegexPattern :=
  patterns.filter (fun rp => rp ∉ matchedPatterns patterns content)

/-- Update mode of `process_file_version`: every line rewritten. -/
def process_file_version_update (patterns : List RegexPattern)
    (content : List (List Char)) : List (List Char) :=
  content.map (updateLine patterns)

/-- Validate mode of `process_file_version`: returns
`len(unmatched_patterns) == 0`. -/
def process_file_version_validate (patterns : List RegexPattern)
    (content : List (List Char)) : Bool :=
  unmatchedPatterns patterns content = []

/-! ### Run orchestration (`process`)

The file system is modelled as an association list from path to file content
(a list of lines).  Directory expansion, the git-root lookup and
relative-to-absolute path conversion of the script are outside the modelled
engine: paths are taken as they appear in the file-system map, and a path
missing from the map is the `error_exit("Path not found")` case of
`expand_paths`. -/

abbrev FS := List (String × List (List Char))

def fsRead (fs : FS) (path : String) : Option (List (List Char)) :=
  (fs.find? (fun e => e.1 = path)).map (·.2)

/-- Writing a file's new content back (update mode). -/
def fsWrite (fs : FS) (path : String) (content : List (List Char)) : FS :=
  if (fs.find? (fun e => e.1 = path)).isSome then
    fs.map (fun e => if e.1 = path then (path, content) else e)
  else fs ++ [(path, content)]

/-- Model of `os.path.splitext(path)[1]`: the final dot-suffix of the last
path component (empty when the component's tail has no dot). -/
def extOf (p : String) : String :=
  let base := (p.data.reverse.takeWhile (fun c => c ≠ '/')).reverse
  let tailPart := base.drop 1
  if tailPart.contains '.' then ⟨'.' :: (tailPart.reverse.takeWhile (fun c => c ≠ '.')).reverse⟩
  else ""

/-- Splitting one path argument into path and optional pattern type:
`path.split(':', 1) if ':' in path else (path, None)`. -/
def pathAndType (p : String) : String × Option String :=
  let (a, b) := pySplitFirst ':' p.data
  (⟨a⟩, b.map (⟨·⟩))

/-- Source function `expand_paths` restricted to plain files: each path must
exist in the file system, else the run aborts with `error_exit`. -/
def expand_paths (paths : List String) (fs : FS) :
    Except ExitErr (List (String × Option String)) :=
  match paths with
  | [] => .ok []
  | p :: rest =>
    let (cp, pt) := pathAndType p
    if (fsRead fs cp).isSome then
      (expand_paths rest fs).map ((cp, pt) :: ·)
    else
      .error ⟨"Path not found", "Path does not exist or is not a file or directory."⟩

/-- The file-to-pattern-list accumulator (`paths_to_patterns`), an
insertion-ordered dictionary. -/
abbrev PatternAcc := List (String × List RegexPattern)

/-- `paths_to_patterns.setdefault(file_path, []).append(regex_pattern)`. -/
def accAppend (acc : PatternAcc) (path : String) (rp : RegexPattern) : PatternAcc :=
  if (acc.find? (fun e => e.1 = path)).isSome then
    acc.map (fun e => if e.1 = path then (e.1, e.2 ++ [rp]) else e)
  else acc ++ [(path, [rp])]

/-- Templates applicable to one expanded path: by explicit pattern type if
present, else by file extension; keys absent from the catalog yield `[]`. -/
def templatesFor (catalog : List (String × List RegexTemplate))
    (path : String) (ptype : Option String) : List RegexTemplate :=
  match ptype with
  | some t => ((catalog.find? (fun e => e.1 = t)).map (·.2)).getD []
  | none => ((catalog.find? (fun e => e.1 = extOf path)).map (·.2)).getD []

/-- Inner loop over a file's templates: generate each pattern (which may
`error_exit`) and append the resulting `RegexPattern`. -/
def addTemplates (name : Option String) (version : String) (path : String) :
    List RegexTemplate → PatternAcc → Except ExitErr PatternAcc
  | [], acc => .ok acc
  | t :: rest, acc => do
    let pat ← generate_pattern t name
    addTemplates name version path rest
      (accAppend acc path ⟨t.description, pat, some version, t.version_pattern⟩)

/-- Loop over expanded paths shared by both pattern generators. -/
def genForPaths (catalog : List (String × List RegexTemplate))
    (name : Option String) (version : String) :
    List (String × Option String) → PatternAcc → Except ExitErr PatternAcc
  | [], acc => .ok acc
  | (path, ptype) :: rest, acc => do
    let acc' ← addTemplates name version path (templatesFor catalog path ptype) acc
    genForPaths catalog name version rest acc'

/-- Source function `generate_extension_patterns`. -/
def generate_extension_patterns (paths : List String) (version : String)
    (name : Option String) (fs : FS) : Except ExitErr PatternAcc := do
  let expanded ← expand_paths paths fs
  genForPaths EXTENSION_REGEX_PATTERNS name version expanded []

/-- One dependency entry of `generate_dependency_patterns`:
`dependency.strip().split('@')`, whitespace-split of the part before the
first `@`; entries whose whitespace split is not exactly two tokens are
skipped with a notice (`continue`), contributing nothing; otherwise the
entry's own `;`-separated paths (the part between the first and second `@`)
or the base paths are expanded and dependency patterns generated. -/
def genDeps (base_paths : List String) (fs : FS) :
    List String → PatternAcc → Except ExitErr PatternAcc
  | [], acc => .ok acc
  | dep :: rest, acc =>
    let dependency_parts := pySplitOn '@' (pyStrip dep).data
    let base_parts := pySplitWs (dependency_parts.headD [])
    if base_parts.length = 2 then
      let dependency_name : String := ⟨base_parts.headD []⟩
      let dependency_version : String := ⟨(base_parts.drop 1).headD []⟩
      let paths : List String :=
        if dependency_parts.length > 1 then
          (pySplitOn ';' ((dependency_parts.drop 1).headD [])).map (⟨·⟩)
        else base_paths
      match expand_paths paths fs with
      | .error e => .error e
      | .ok expanded =>
        match genForPaths DEPENDENCY_REGEX_PATTERNS (some dependency_name)
                dependency_version expanded acc with
        | .error e => .error e
        | .ok acc' => genDeps base_paths fs rest acc'
    else
      genDeps base_paths fs rest acc

/-- Splitting a comma-separated CLI list and dropping empty entries, as done
for both `--paths` and `--dependencies`. -/
def splitCommaList (s : String) : List String :=
  ((pySplitOn ',' s.data).map (fun d => pyStrip ⟨d⟩)).filter (· ≠ "")

/-- Source function `generate_dependency_patterns` (taking the raw
`--dependencies` string). -/
def generate_dependency_patterns (base_paths : List String)
    (dependencies_str : Option String) (fs : FS) : Except ExitErr PatternAcc :=
  let dependencies_input :=
    match dependencies_str with
    | none => []
    | some ds => if ds = "" then [] else splitCommaList ds
  genDeps base_paths fs dependencies_input []

/-- Parsed command-line arguments relevant to `process`. -/
structure RunArgs where
  version : String
  dependencies : Option String := none
  paths : Option String := none
  update : Bool := false
  name : Option String := none

/-- Merging dependency patterns into the extension patterns:
`paths_to_patterns.setdefault(key, []).extend(value)`. -/
def accExtend (acc : PatternAcc) (path : String) (rps : List RegexPattern) : PatternAcc :=
  if (acc.find? (fun e => e.1 = path)).isSome then
    acc.map (fun e => if e.1 = path then (e.1, e.2 ++ rps) else e)
  else acc ++ [(path, rps)]

def mergeAcc (a b : PatternAcc) : PatternAcc :=
  b.foldl (fun acc e => accExtend acc e.1 e.2) a

/-- What validate mode reports for one file: the file processed and its
unmatched patterns (one FAIL diagnostic each). -/
structure FileReport where
  path : String
  unmatched : List RegexPattern
  deriving DecidableEq, Repr

/-- The validate-mode loop over all files:
`validation_passed = process_file_version(...) and validation_passed` —
the call runs for every file regardless of earlier failures. -/
def runLoopValidate (p2p : PatternAcc) (fs : FS) : Bool × List FileReport :=
  p2p.foldl
    (fun st e =>
      let content := (fsRead fs e.1).getD []
      (process_file_version_validate e.2 content && st.1,
       st.2 ++ [⟨e.1, unmatchedPatterns e.2 content⟩]))
    (true, [])

/-- The update-mode loop: each file's content rewritten and written back. -/
def runLoopUpdate (p2p : PatternAcc) (fs : FS) : FS :=
  p2p.foldl
    (fun fs' e => fsWrite fs' e.1 (process_file_version_update e.2 ((fsRead fs' e.1).getD [])))
    fs

/-- Outcome of a whole run: the process exit status, the resulting file
system, and the per-file validate reports. -/
structure RunResult where
  exitCode : Nat
  fs : FS
  reports : List FileReport
  deriving Repr

/-- The `--paths` argument split into individual path entries. -/
def parsedPaths (args : RunArgs) : List String :=
  match args.paths with
  | none => []
  | some p => if p = "" then [] else splitCommaList p

/-- The pattern-resolution phase of `process`: generate extension and
dependency patterns and merge the two dictionaries.  This runs to completion
(or aborts via `error_exit`) before the per-file loop reads or writes any
file content. -/
def genPhase (args : RunArgs) (fs : FS) : Except ExitErr PatternAcc := do
  let ext ← generate_extension_patterns (parsedPaths args) args.version args.name fs
  let dep ← generate_dependency_patterns (parsedPaths args) args.dependencies fs
  pure (mergeAcc ext dep)

/-- Source function `process`: resolve all patterns (any `error_exit` aborts
with status 1 before any file content is processed), then run the per-file
loop; validate mode exits 1 exactly when some file failed, after all files
were processed. -/
def process (args : RunArgs) (fs : FS) : RunResult :=
  match genPhase args fs with
  | .error _ => ⟨1, fs, []⟩
  | .ok p2p =>
    if args.update then ⟨0, runLoopUpdate p2p fs, []⟩
    else
      let (passed, reps) := runLoopValidate p2p fs
      ⟨if passed then 0 else 1, fs, reps⟩

/-! ### Auxiliary predicates used by the claim statements -/

/-- A version string free of backslashes (inside Python's replacement string
`f"\g<1>{version}"` a backslash in the version would be re-interpreted as a
replacement escape; the embedding inserts the version literally, so claims
about update results assume this). -/
def noBackslash (s : String) : Bool :=
  s.data.all (fun c => c ≠ '\\')

/-- A `RegexTemplate` whose `pattern_template` is a callable (the templated
case requiring a dependency/extension name). -/
def isDynT (t : RegexTemplate) : Prop :=
  ∃ f, t.pattern_template = .dyn f

/-- A dotted version token `a.b.c` where every character of `a` satisfies
class `first` and `b`, `c` are nonempty digit runs.  With `first = CC.digit`
this is the language of `VERSION_REGEX`, with `first = CC.nonzero` that of
`TEST_VERSION_REGEX`. -/
def dottedTriple (first : CC) (X : List Char) : Prop :=
  ∃ a b c, X = a ++ '.' :: (b ++ '.' :: c) ∧
    a ≠ [] ∧ (∀ x ∈ a, first.mem x = true) ∧
    b ≠ [] ∧ (∀ x ∈ b, CC.digit.mem x = true) ∧
    c ≠ [] ∧ (∀ x ∈ c, CC.digit.mem x = true)

/-- The name derivation claim C6 describes for the Gradle property anchor:
strip the fixed known prefix `AEP` when present. -/
def stripKnownPrefix (name : String) : String :=
  if pyStartsWith name "AEP" then pyDrop 3 name else name

/-- The Gradle property anchor as claim C6 describes it (prefix-stripped,
first letter lowercased, escaped) — a spec-side definition for comparison
with `gradle_properties_template`. -/
def gradle_properties_template_claimed (name : String) : String :=
  templateSubst "^[\\s\\S]*maven${dependency_name}Version\\s*=\\s*"
    (re_escape (lowercase_first_char (stripKnownPrefix name)))

/-- The repository URL shape claim C7 describes for a prefixed dependency
name (`https://github.com/<org>/<lowercased-suffix>-ios.git` with the prefix
stripped and the remainder lowercased) — a spec-side definition for
comparison with `get_ios_repo_name`. -/
def ios_repo_url_claimed (name : String) : String :=
  "https://github.com/adobe/" ++ pyLower (pyDrop 3 name) ++ "-ios.git"

/-! ### Notions used to state and prove the round-trip / idempotence facts -/

/-- Matching the anchor tail `T` followed by the version regex `V` at
position `j` of the subject suffix `s`, returning the two group end
positions — the continuation used under the leading `^[\s\S]*` of every
generated anchor. -/
def matchTV (T V : List Atom) (s : List Char) (j : Nat) : Option (Nat × Nat) :=
  matchSeq T s j fun s1 p1 => matchSeq V s1 p1 fun _ p2 => some (p1, p2)

/-- The head of `t` is outside class `c` (or `t` is empty): a greedy run of
`c` placed before `t` cannot extend into `t`. -/
def blockedHead (c : CC) (t : List Char) : Prop :=
  ∀ d, t.head? = some d → c.mem d = false

/-- No proper suffix of `L` is a prefix of `L` extended by anything: every
alignment of `L` against its own tail mismatches inside `L`. -/
def borderFree (L : List Char) : Bool :=
  decide (∀ i < L.length, 1 ≤ i →
    ∃ m < L.length, i + m < L.length ∧ L[i + m]? ≠ L[m]?)

/-- Every suffix of the literal `P` mismatches `L` at some position still
inside `P` — so `L` cannot start anywhere inside `P`, whatever follows. -/
def litClean (L P : List Char) : Bool :=
  decide (∀ o < P.length, ∃ m < L.length, o + m < P.length ∧ P[o + m]? ≠ L[m]?)

/-- The anchor-head literal `L` cannot start at any position of `z` (with the
fixed remainder `R` following `z`). -/
def NoRestart (L z R : List Char) : Prop :=
  ∀ i, i < z.length → L.isPrefixOf (z.drop i ++ R) = false

/-- A segment of a generated anchor tail after its leading literal: a greedy
whitespace run `\s*`, a literal, or a one-character quote class `["']`.
Every anchor in the two catalogs has the form
`^[\s\S]*` + leading literal + segments. -/
inductive Seg where
  | ws
  | lit (P : List Char)
  | qcls
  deriving DecidableEq, Repr

/-- The atoms of a segment list. -/
def segAtoms : List Seg → List Atom
  | [] => []
  | .ws :: r => .starC .ws :: segAtoms r
  | .lit P :: r => .lit P :: segAtoms r
  | .qcls :: r => .cls .quote :: segAtoms r

/-- The text a segment list can consume: whitespace runs for `ws`, the exact
literal for `lit`, one quote character for `qcls`. -/
def SegSpan : List Seg → List Char → Prop
  | [], u => u = []
  | .ws :: r, u => ∃ w u', u = w ++ u' ∧ (∀ x ∈ w, wsChar x = true) ∧ SegSpan r u'
  | .lit P :: r, u => ∃ u', u = P ++ u' ∧ SegSpan r u'
  | .qcls :: r, u => ∃ q u', u = q :: u' ∧ CC.quote.mem q = true ∧ SegSpan r u'

/-- A segment span decorated with blocking facts: each whitespace run is
followed (inside `u ++ t`) by a non-whitespace character, so a greedy rescan
consumes exactly the same text. -/
def SegSpanB : List Seg → List Char → List Char → Prop
  | [], u, _ => u = []
  | .ws :: r, u, t => ∃ w u', u = w ++ u' ∧ (∀ x ∈ w, wsChar x = true) ∧
      blockedHead .ws (u' ++ t) ∧ SegSpanB r u' t
  | .lit P :: r, u, t => ∃ u', u = P ++ u' ∧ SegSpanB r u' t
  | .qcls :: r, u, t => ∃ q u', u = q :: u' ∧ CC.quote.mem q = true ∧ SegSpanB r u' t

/-- Structural check making whitespace runs re-scannable: no two adjacent
whitespace segments, and any literal following a whitespace segment starts
with a non-whitespace character. -/
def wsOK : List Seg → Bool
  | [] => true
  | .ws :: r =>
    (match r with
     | [] => true
     | .ws :: _ => false
     | .lit [] :: _ => false
     | .lit (c :: _) :: _ => !wsChar c
     | .qcls :: _ => true) && wsOK r
  | _ :: r => wsOK r

/-- Round-trip property of one pattern: updating any file with a matching
line and then validating it against the pattern succeeds. -/
def roundTrips (rp : RegexPattern) : Prop :=
  ∀ lines : List (List Char),
    (∃ line ∈ lines, (lineMatchPair rp line).isSome = true) →
    process_file_version_validate [rp]
      (process_file_version_update [rp] lines) = true

/-- Idempotence property of one pattern: a second update run over the output
of the first changes nothing. -/
def idempotentFor (rp : RegexPattern) : Prop :=
  ∀ lines : List (List Char),
    process_file_version_update [rp] (process_file_version_update [rp] lines) =
      process_file_version_update [rp] lines

/-- Every literal segment is `litClean` for the anchor literal `L`: `L`
cannot restart inside any literal segment of the tail. -/
def segsClean (L : List Char) : List Seg → Bool
  | [] => true
  | .ws :: r => segsClean L r
  | .lit P :: r => litClean L P && segsClean L r
  | .qcls :: r => segsClean L r

/-- `borderFree` restricted to alignment offsets below `n` (used for the one
catalog literal, `"version"` including its quotes, that has a border at its
final character). -/
def borderFreeBelow (L : List Char) (n : Nat) : Bool :=
  decide (∀ i < n, 1 ≤ i →
    ∃ m < L.length, i + m < L.length ∧ L[i + m]? ≠ L[m]?)

/-- All stability facts needed to re-match a generated pattern after its
version span is rewritten with the pattern's own version text: the anchor
compiles to `^[\s\S]*` + leading literal `L` + segments `segs`, the version
regex compiles to `V` whose successful matches decompose into a consumed
span and a remainder satisfying `VTail` (and conversely the version text
followed by such a remainder matches), the version text is nonempty, does
not begin with whitespace, and can host no restart of `L` — neither inside
the consumed segment span and version text nor inside a tail of `L`
itself. -/
def stableFor (rp : RegexPattern) (L : List Char) (segs : List Seg)
    (V : List Atom) (VTail : List Char → Prop) : Prop :=
  anchorAtoms rp = some (.bol :: .starC .any :: .lit L :: segAtoms segs) ∧
  versionAtoms rp = some V ∧
  L ≠ [] ∧
  wsOK segs = true ∧
  Atom.bol ∉ V ∧
  (∀ (s : List Char) (pos : Nat) (k : List Char → Nat → Option (Nat × Nat))
      (r : Nat × Nat), (∀ t q, (k t q).isSome = true) →
      matchSeq V s pos k = some r →
      ∃ v R, s = v ++ R ∧ VTail R ∧ k R (pos + v.length) = some r) ∧
  (pyStr rp.version).data ≠ [] ∧
  blockedHead .ws (pyStr rp.version).data ∧
  (∀ (R : List Char) (pos : Nat) (k : List Char → Nat → Option (Nat × Nat))
      (r : Nat × Nat), VTail R →
      k R (pos + (pyStr rp.version).data.length) = some r →
      matchSeq V ((pyStr rp.version).data ++ R) pos k = some r) ∧
  (∀ u R, SegSpan segs u → VTail R →
      NoRestart L (u ++ (pyStr rp.version).data) R) ∧
  (∀ u R, SegSpan segs u → VTail R → ∀ i, 1 ≤ i → i < L.length →
      L.isPrefixOf (L.drop i ++ (u ++ ((pyStr rp.version).data ++ R))) = false)

/-! ## Theorems -/

/-- Substitution scanning never fires at a nonzero position for a
`^`-anchored pattern: the remainder of the line is copied verbatim. -/
theorem subScan_stopped (arest v : List Atom) (nv : List Char) :
    ∀ (fuel : Nat) (s : List Char) (pos : Nat), pos ≠ 0 →
      subScan (.bol :: arest) v nv fuel s pos = s := by
  intro fuel
  induction fuel with
  | zero => intro s pos _; rfl
  | succ n ih =>
    intro s pos hpos
    have hnone : matchSeq (.bol :: arest) s pos
        (fun s1 q1 => matchSeq v s1 q1 fun _ q2 => some (q1, q2)) =
        (none : Option (Nat × Nat)) := by
      simp [matchSeq, hpos]
    simp only [subScan, hnone]
    cases s with
    | nil => rfl
    | cons c rest => simp [ih rest (pos + 1) (by omega)]

/-- For a `^`-anchored two-group pattern that matches the line with a
nonempty overall span, `re.sub` with replacement `\g<1>{newV}` rewrites the
line to group 1, then the new version text, then everything after the match. -/
theorem pySubTwo_of_match (arest v : List Atom) (nv line : List Char)
    (p1 p2 : Nat)
    (hm : pyMatchTwo (.bol :: arest) v line = some (p1, p2)) (hp : 0 < p2) :
    pySubTwo (.bol :: arest) v nv line = line.take p1 ++ nv ++ line.drop p2 := by
  have h1 : matchSeq (.bol :: arest) line 0
      (fun s1 q1 => matchSeq v s1 q1 fun _ q2 => some (q1, q2)) =
      some (p1, p2) := hm
  show subScan (.bol :: arest) v nv (line.length + 1) line 0 = _
  simp only [subScan, h1]
  rw [if_pos hp]
  simp only [Nat.sub_zero]
  rw [subScan_stopped arest v nv line.length (line.drop p2) p2 (by omega)]

/-- Claim C2's per-line fact: the validate branch records a pattern as
matched exactly when the two-group regex matches and the group-2 text equals
the pattern's expected version string. -/
theorem lineMatched_iff (rp : RegexPattern) (line : List Char) :
    lineMatched rp line = true ↔
      ∃ p1 p2, lineMatchPair rp line = some (p1, p2) ∧
        rp.version = some ⟨(line.take p2).drop p1⟩ := by
  cases h : lineMatchPair rp line with
  | none => simp [lineMatched, h]
  | some pr =>
    obtain ⟨p1, p2⟩ := pr
    simp only [lineMatched, h, decide_eq_true_eq]
    exact ⟨fun hh => ⟨p1, p2, rfl, hh⟩,
      by rintro ⟨a, b, hab, hh⟩; cases hab; exact hh⟩

/-- Unfolding of the matched-pattern accumulation over a file. -/
theorem mem_matchedPatterns_aux (patterns : List RegexPattern)
    (rp : RegexPattern) :
    ∀ (content : List (List Char)) (init : List RegexPattern),
      rp ∈ content.foldl
        (fun acc line => acc ++ patterns.filter (fun q => lineMatched q line)) init ↔
      rp ∈ init ∨ ∃ line ∈ content, rp ∈ patterns ∧ lineMatched rp line = true := by
  intro content
  induction content with
  | nil => intro init; simp
  | cons l ls ih =>
    intro init
    rw [List.foldl_cons, ih]
    constructor
    · rintro (h1 | ⟨line, hline, hp, hm⟩)
      · rcases List.mem_append.mp h1 with h | h
        · exact Or.inl h
        · rcases List.mem_filter.mp h with ⟨hp, hl⟩
          exact Or.inr ⟨l, List.mem_cons_self _ _, hp, by simpa using hl⟩
      · exact Or.inr ⟨line, List.mem_cons_of_mem _ hline, hp, hm⟩
    · rintro (h | ⟨line, hline, hp, hm⟩)
      · exact Or.inl (List.mem_append.mpr (Or.inl h))
      · rcases List.mem_cons.mp hline with rfl | hline'
        · exact Or.inl (List.mem_append.mpr
            (Or.inr (List.mem_filter.mpr ⟨hp, by simpa using hm⟩)))
        · exact Or.inr ⟨line, hline', hp, hm⟩

/-- Membership in a file's matched patterns means some line of the file
matched with the exact expected version. -/
theorem mem_matchedPatterns (rp : RegexPattern) (patterns : List RegexPattern)
    (content : List (List Char)) :
    rp ∈ matchedPatterns patterns content ↔
      rp ∈ patterns ∧ ∃ line ∈ content, lineMatched rp line = true := by
  rw [matchedPatterns, mem_matchedPatterns_aux]
  simp only [List.not_mem_nil, false_or]
  constructor
  · rintro ⟨line, hl, hp, hm⟩; exact ⟨hp, line, hl, hm⟩
  · rintro ⟨hp, line, hl, hm⟩; exact ⟨line, hl, hp, hm⟩

/-- Claim C2: in validate mode a pattern is recorded as matched only when
the version text captured by group 2 of `({anchor})({versionRegex})` is
exactly string-equal to the pattern's expected version — the comparison is
plain string equality, so with the default grammar, validating a file whose
version token is `1.2.30` or `01.2.3` against expected version `1.2.3`
fails. -/
theorem C2_exact_match :
    (∀ (rp : RegexPattern) (patterns : List RegexPattern)
       (content : List (List Char)),
      rp ∈ matchedPatterns patterns content →
        ∃ line ∈ content, ∃ p1 p2,
          lineMatchPair rp line = some (p1, p2) ∧
          rp.version = some ⟨(line.take p2).drop p1⟩) ∧
    process_file_version_validate
      [⟨"moduleVersion", "^[\\s\\S]*moduleVersion\\s*=\\s*", some "1.2.3", none⟩]
      ["moduleVersion = 1.2.30\n".data] = false ∧
    process_file_version_validate
      [⟨"moduleVersion", "^[\\s\\S]*moduleVersion\\s*=\\s*", some "1.2.3", none⟩]
      ["moduleVersion = 01.2.3\n".data] = false := by
  refine ⟨?_, by decide, by decide⟩
  intro rp patterns content hmem
  obtain ⟨-, line, hl, hm⟩ := (mem_matchedPatterns rp patterns content).mp hmem
  obtain ⟨p1, p2, hpair, hver⟩ := (lineMatched_iff rp line).mp hm
  exact ⟨line, hl, p1, p2, hpair, hver⟩

/-- Witness for C2 at a concrete input: the pattern is recorded as matched
for a correct token, and the captured text is the expected version. -/
theorem C2_exact_match_witness :
    ∃ p1 p2,
      lineMatchPair
        ⟨"moduleVersion", "^[\\s\\S]*moduleVersion\\s*=\\s*", some "1.2.3", none⟩
        "moduleVersion = 1.2.3\n".data = some (p1, p2) ∧
      (⟨"moduleVersion", "^[\\s\\S]*moduleVersion\\s*=\\s*", some "1.2.3", none⟩ :
        RegexPattern).version =
        some ⟨("moduleVersion = 1.2.3\n".data.take p2).drop p1⟩ := by
  obtain ⟨line, hl, p1, p2, hpair, hver⟩ :=
    C2_exact_match.1
      ⟨"moduleVersion", "^[\\s\\S]*moduleVersion\\s*=\\s*", some "1.2.3", none⟩
      [⟨"moduleVersion", "^[\\s\\S]*moduleVersion\\s*=\\s*", some "1.2.3", none⟩]
      ["moduleVersion = 1.2.3\n".data]
      (by decide)
  have he : line = "moduleVersion = 1.2.3\n".data := by simpa using hl
  subst he
  exact ⟨p1, p2, hpair, hver⟩

/-- Claim C3: whenever a pattern's two-group regex matches at the start of a
line, the update-mode rewrite produces exactly the group-1 text, then the
pattern's expected version, then the content after the matched version token
unchanged.  (The version is inserted literally; the no-backslash hypothesis
records that Python would reprocess replacement escapes inside it.) -/
theorem C3_update_rewrite (rp : RegexPattern) (arest v : List Atom)
    (line : List Char) (p1 p2 : Nat) (ver : String)
    (ha : anchorAtoms rp = some (.bol :: arest))
    (hv : versionAtoms rp = some v)
    (hm : pyMatchTwo (.bol :: arest) v line = some (p1, p2))
    (hp : 0 < p2)
    (hver : rp.version = some ver) (_ : noBackslash ver = true) :
    updateLine [rp] line = line.take p1 ++ ver.data ++ line.drop p2 := by
  have : updateLine [rp] line = pySubTwo (.bol :: arest) v (pyStr rp.version).data line := by
    simp only [updateLine, List.foldl_cons, List.foldl_nil, ha, hv, hm]
  rw [this, hver]
  exact pySubTwo_of_match arest v (pyStr (some ver)).data line p1 p2 hm hp

/-- Witness for C3: a concrete update of a `moduleVersion` line. -/
theorem C3_update_rewrite_witness :
    updateLine
      [⟨"moduleVersion", "^[\\s\\S]*moduleVersion\\s*=\\s*", some "9.9.9", none⟩]
      "moduleVersion = 1.2.3 tail\n".data =
      "moduleVersion = 1.2.3 tail\n".data.take 16 ++ "9.9.9".data ++
        "moduleVersion = 1.2.3 tail\n".data.drop 21 := by
  exact C3_update_rewrite
    ⟨"moduleVersion", "^[\\s\\S]*moduleVersion\\s*=\\s*", some "9.9.9", none⟩
    [.starC .any, .lit "moduleVersion".data, .starC .ws, .lit ['='], .starC .ws]
    [.plusC .digit, .lit ['.'], .plusC .digit, .lit ['.'], .plusC .digit]
    "moduleVersion = 1.2.3 tail\n".data 16 21 "9.9.9"
    (by decide) (by decide) (by decide) (by decide) rfl (by decide)

/-- Unrolling the validate-mode loop: the final flag is the conjunction of
all per-file results and every file contributes exactly one report. -/
theorem runLoopValidate_go (fs : FS) :
    ∀ (l : PatternAcc) (b : Bool) (reps : List FileReport),
      l.foldl (fun st e =>
        (process_file_version_validate e.2 ((fsRead fs e.1).getD []) && st.1,
         st.2 ++ [⟨e.1, unmatchedPatterns e.2 ((fsRead fs e.1).getD [])⟩])) (b, reps) =
      (l.all (fun e => process_file_version_validate e.2 ((fsRead fs e.1).getD [])) && b,
       reps ++ l.map (fun e => ⟨e.1, unmatchedPatterns e.2 ((fsRead fs e.1).getD [])⟩)) := by
  intro l
  induction l with
  | nil => intro b reps; simp
  | cons e l ih =>
    intro b reps
    rw [List.foldl_cons, ih]
    simp [Bool.and_assoc, Bool.and_comm, Bool.and_left_comm]

/-- Closed form of the validate-mode loop. -/
theorem runLoopValidate_spec (p2p : PatternAcc) (fs : FS) :
    runLoopValidate p2p fs =
      (p2p.all (fun e => process_file_version_validate e.2 ((fsRead fs e.1).getD [])),
       p2p.map (fun e => ⟨e.1, unmatchedPatterns e.2 ((fsRead fs e.1).getD [])⟩)) := by
  rw [runLoopValidate, runLoopValidate_go]
  simp

/-- Claim C4: a file's validate result is success exactly when
`unmatched = allPatterns − matchedPatterns` is empty, and a validate-mode run
whose pattern resolution succeeded exits nonzero exactly when some file has a
nonempty unmatched set; every file in the mapping contributes its report (a
failing file does not stop the remaining files from being checked, and
failure surfaces only in the final exit status). -/
theorem C4_validate_aggregation :
    (∀ (patterns : List RegexPattern) (content : List (List Char)),
      process_file_version_validate patterns content = true ↔
        unmatchedPatterns patterns content = []) ∧
    (∀ (args : RunArgs) (fs : FS) (p2p : PatternAcc),
      args.update = false → genPhase args fs = .ok p2p →
        (process args fs).reports =
          p2p.map (fun e => ⟨e.1, unmatchedPatterns e.2 ((fsRead fs e.1).getD [])⟩) ∧
        ((process args fs).exitCode ≠ 0 ↔
          ∃ e ∈ p2p, unmatchedPatterns e.2 ((fsRead fs e.1).getD []) ≠ [])) := by
  constructor
  · intro patterns content
    simp [process_file_version_validate]
  · intro args fs p2p hupd hgen
    have hpr : process args fs =
        ⟨if p2p.all (fun e => process_file_version_validate e.2 ((fsRead fs e.1).getD []))
          then 0 else 1,
         fs,
         p2p.map (fun e => ⟨e.1, unmatchedPatterns e.2 ((fsRead fs e.1).getD [])⟩)⟩ := by
      unfold process
      rw [hgen]
      simp [hupd, runLoopValidate_spec]
      rw [runLoopValidate_spec]
    by_cases hall : p2p.all
        (fun e => process_file_version_validate e.2 ((fsRead fs e.1).getD [])) = true
    · rw [hpr]
      rw [if_pos hall]
      refine ⟨rfl, ?_⟩
      simp only [ne_eq, not_true_eq_false, false_iff]
      rintro ⟨e, he, hne⟩
      have hv := (List.all_eq_true.mp hall) e he
      rw [process_file_version_validate] at hv
      exact hne (by simpa using hv)
    · rw [hpr]
      rw [if_neg hall]
      refine ⟨rfl, ?_⟩
      constructor
      · intro _
        by_contra hnone
        push_neg at hnone
        apply hall
        rw [List.all_eq_true]
        intro e he
        rw [process_file_version_validate]
        simpa using hnone e he
      · intro _
        simp

/-- Witness for C4 at a concrete validate run: the expected version does not
match, the file is reported, and the run exits nonzero. -/
theorem C4_validate_aggregation_witness :
    (process ⟨"9.9.9", none, some "gradle.properties", false, none⟩
      [("gradle.properties", ["moduleVersion = 1.2.3\n".data])]).exitCode ≠ 0 := by
  have h := C4_validate_aggregation.2
    ⟨"9.9.9", none, some "gradle.properties", false, none⟩
    [("gradle.properties", ["moduleVersion = 1.2.3\n".data])]
    [("gradle.properties",
      [⟨"moduleVersion", "^[\\s\\S]*moduleVersion\\s*=\\s*", some "9.9.9", none⟩])]
    rfl rfl
  exact h.2.mpr ⟨("gradle.properties",
      [⟨"moduleVersion", "^[\\s\\S]*moduleVersion\\s*=\\s*", some "9.9.9", none⟩]),
    by decide, by decide⟩

/-- Skipping rule of the dependency parser: an entry whose pre-`@` part does
not whitespace-split into exactly two tokens contributes nothing and the run
continues with the remaining entries. -/
theorem genDeps_skip (dep : String) (base_paths : List String) (fs : FS)
    (rest : List String) (acc : PatternAcc)
    (h : (pySplitWs ((pySplitOn '@' (pyStrip dep).data).headD [])).length ≠ 2) :
    genDeps base_paths fs (dep :: rest) acc = genDeps base_paths fs rest acc := by
  rw [genDeps]
  rw [if_neg h]

/-- Claim C10: each dependency entry's text before any `@` is whitespace
split; when the split is not exactly two tokens the entry is skipped with a
notice — contributing no patterns and not failing the run.  An entry with
extra tokens such as `AEPCore 1.2.3 beta` (three tokens) is skipped exactly
like an entry missing a version. -/
theorem C10_dep_skip :
    (∀ (dep : String) (base_paths : List String) (fs : FS)
       (rest : List String) (acc : PatternAcc),
      (pySplitWs ((pySplitOn '@' (pyStrip dep).data).headD [])).length ≠ 2 →
        genDeps base_paths fs (dep :: rest) acc = genDeps base_paths fs rest acc) ∧
    (pySplitWs ((pySplitOn '@' (pyStrip "AEPCore 1.2.3 beta").data).headD [])).length = 3 ∧
    (∀ (base_paths : List String) (fs : FS) (acc : PatternAcc),
      generate_dependency_patterns base_paths (some "AEPCore 1.2.3 beta") fs =
        genDeps base_paths fs [] [] ∧
      genDeps base_paths fs [] acc = .ok acc) := by
  refine ⟨genDeps_skip, by decide, ?_⟩
  intro base_paths fs acc
  constructor
  · show genDeps base_paths fs (splitCommaList "AEPCore 1.2.3 beta") [] = _
    have hs : splitCommaList "AEPCore 1.2.3 beta" = ["AEPCore 1.2.3 beta"] := by decide
    rw [hs, genDeps_skip _ _ _ _ _ (by decide)]
  · rfl

/-- Witness for C10: the malformed three-token entry yields no patterns and
no error. -/
theorem C10_dep_skip_witness :
    genDeps ["gradle.properties"] [("gradle.properties", [])]
      ["AEPCore 1.2.3 beta"] [] = .ok [] := by
  rw [C10_dep_skip.1 "AEPCore 1.2.3 beta" ["gradle.properties"]
    [("gradle.properties", [])] [] [] (by decide)]
  rfl

/-- Generating patterns from templates that are all static never fails. -/
theorem addTemplates_static_ok (nm : Option String) (version path : String) :
    ∀ (ts : List RegexTemplate) (acc : PatternAcc),
      (∀ t ∈ ts, ¬ isDynT t) →
        ∃ acc', addTemplates nm version path ts acc = .ok acc' := by
  intro ts
  induction ts with
  | nil => intro acc _; exact ⟨acc, rfl⟩
  | cons t ts ih =>
    intro acc hstat
    cases ht : t.pattern_template with
    | dyn f => exact absurd ⟨f, ht⟩ (hstat t (List.mem_cons_self _ _))
    | static s =>
      obtain ⟨acc', hacc⟩ :=
        ih (accAppend acc path ⟨t.description, s, some version, t.version_pattern⟩)
          (fun u hu => hstat u (List.mem_cons_of_mem _ hu))
      refine ⟨acc', ?_⟩
      simp only [addTemplates, generate_pattern, ht]
      exact hacc

/-- With the name absent or empty, reaching any callable template aborts the
pattern generation with `error_exit`. -/
theorem addTemplates_dyn_error (nm : Option String) (version path : String)
    (hnm : nm = none ∨ nm = some "") :
    ∀ (ts : List RegexTemplate) (acc : PatternAcc),
      (∃ t ∈ ts, isDynT t) →
        ∃ e, addTemplates nm version path ts acc = .error e := by
  intro ts
  induction ts with
  | nil => intro acc h; simp at h
  | cons t ts ih =>
    intro acc hdyn
    cases ht : t.pattern_template with
    | dyn f =>
      refine ⟨⟨"Name required", "Name is required for dynamic pattern generation."⟩, ?_⟩
      rcases hnm with h | h <;>
        · simp only [addTemplates, generate_pattern, ht, h]
          rfl
    | static s =>
      obtain ⟨u, hu, hud⟩ := hdyn
      have hu' : u ∈ ts := by
        rcases List.mem_cons.mp hu with rfl | h
        · exact absurd hud (by rw [isDynT, ht]; rintro ⟨f, h⟩; cases h)
        · exact h
      obtain ⟨e, he⟩ :=
        ih (accAppend acc path ⟨t.description, s, some version, t.version_pattern⟩) ⟨u, hu', hud⟩
      refine ⟨e, ?_⟩
      simp only [addTemplates, generate_pattern, ht]
      exact he

/-- Propagation of the missing-name error through the per-path loop. -/
theorem genForPaths_error (catalog : List (String × List RegexTemplate))
    (nm : Option String) (version : String) (hnm : nm = none ∨ nm = some "") :
    ∀ (l : List (String × Option String)) (acc : PatternAcc),
      (∃ pe ∈ l, ∃ t ∈ templatesFor catalog pe.1 pe.2, isDynT t) →
        ∃ e, genForPaths catalog nm version l acc = .error e := by
  intro l
  induction l with
  | nil => intro acc h; simp at h
  | cons pe l ih =>
    intro acc hdyn
    by_cases hd : ∃ t ∈ templatesFor catalog pe.1 pe.2, isDynT t
    · obtain ⟨e, he⟩ :=
        addTemplates_dyn_error nm version pe.1 hnm (templatesFor catalog pe.1 pe.2) acc hd
      refine ⟨e, ?_⟩
      simp only [genForPaths, he]
      rfl
    · push_neg at hd
      obtain ⟨acc', hacc⟩ :=
        addTemplates_static_ok nm version pe.1 (templatesFor catalog pe.1 pe.2) acc hd
      obtain ⟨u, hu, t, htm, htd⟩ := hdyn
      have hu' : u ∈ l := by
        rcases List.mem_cons.mp hu with rfl | h
        · exact absurd htd (hd t htm)
        · exact h
      obtain ⟨e, he⟩ := ih acc' ⟨u, hu', t, htm, htd⟩
      refine ⟨e, ?_⟩
      simp only [genForPaths, hacc]
      exact he

/-- Claim C9: when a pattern selected for the run has a callable (templated)
generator and the supplied extension name is absent or empty, the run aborts
with exit status 1 during pattern resolution — the file system is untouched
and no file is processed (pattern resolution runs before the per-file loop
reads or rewrites any content). -/
theorem C9_missing_name (args : RunArgs) (fs : FS)
    (expanded : List (String × Option String))
    (hnm : args.name = none ∨ args.name = some "")
    (hex : expand_paths (parsedPaths args) fs = .ok expanded)
    (hdyn : ∃ pe ∈ expanded,
      ∃ t ∈ templatesFor EXTENSION_REGEX_PATTERNS pe.1 pe.2, isDynT t) :
    (process args fs).exitCode = 1 ∧ (process args fs).fs = fs ∧
      (process args fs).reports = [] := by
  obtain ⟨e, he⟩ :=
    genForPaths_error EXTENSION_REGEX_PATTERNS args.name args.version hnm expanded [] hdyn
  have hge : generate_extension_patterns (parsedPaths args) args.version args.name fs =
      .error e := by
    simp only [generate_extension_patterns, hex]
    exact he
  have hgp : genPhase args fs = .error e := by
    simp only [genPhase, hge]
    rfl
  unfold process
  rw [hgp]
  exact ⟨rfl, rfl, rfl⟩

/-- Witness for C9: requesting the templated `properties_multi_module`
pattern with no `--name` aborts with status 1 and leaves the file untouched. -/
theorem C9_missing_name_witness :
    (process ⟨"1.2.3", none, some "gradle.properties:properties_multi_module", false, none⟩
      [("gradle.properties", ["moduleVersion = 1.2.3\n".data])]).exitCode = 1 ∧
    (process ⟨"1.2.3", none, some "gradle.properties:properties_multi_module", false, none⟩
      [("gradle.properties", ["moduleVersion = 1.2.3\n".data])]).fs =
      [("gradle.properties", ["moduleVersion = 1.2.3\n".data])] ∧
    (process ⟨"1.2.3", none, some "gradle.properties:properties_multi_module", false, none⟩
      [("gradle.properties", ["moduleVersion = 1.2.3\n".data])]).reports = [] := by
  apply C9_missing_name
    ⟨"1.2.3", none, some "gradle.properties:properties_multi_module", false, none⟩
    [("gradle.properties", ["moduleVersion = 1.2.3\n".data])]
    [("gradle.properties", some "properties_multi_module")]
    (Or.inl rfl) rfl
  refine ⟨("gradle.properties", some "properties_multi_module"), by simp, ?_⟩
  have ht : templatesFor EXTENSION_REGEX_PATTERNS "gradle.properties"
      (some "properties_multi_module") =
      [⟨"<library>ExtensionVersion (ex: coreExtensionVersion)",
        .dyn (fun n => .ok (gradle_properties_core_template n)), none, none⟩] := rfl
  rw [ht]
  exact ⟨_, List.mem_singleton.mpr rfl, _, rfl⟩

/-- Counterexample to claim C6: for the name `AEPCore` the Gradle property
anchor keeps the name verbatim (`mavenAEPCoreVersion`), while the claimed
derivation (strip the known prefix, lowercase the first letter) would give
`mavencoreVersion`; the two disagree. -/
theorem C6_counterexample :
    gradle_properties_template "AEPCore" = "^[\\s\\S]*mavenAEPCoreVersion\\s*=\\s*" ∧
    gradle_properties_template_claimed "AEPCore" = "^[\\s\\S]*mavencoreVersion\\s*=\\s*" ∧
    gradle_properties_template "AEPCore" ≠ gradle_properties_template_claimed "AEPCore" := by
  exact ⟨rfl, rfl, by decide⟩

/-- Claim C6 as amended: `gradle_properties_template` inserts the dependency
name regex-escaped but otherwise verbatim — no prefix stripping and no
lowercasing — into `^[\s\S]*maven<Name>Version\s*=\s*`; the lowercase-first
derivation belongs to the separate Core-repo template
`gradle_properties_core_template`, which inserts it into
`^[\s\S]*<name>ExtensionVersion\s*=\s*` (and also strips no prefix). -/
theorem C6_gradle_anchor :
    (∀ name : String, gradle_properties_template name =
      "^[\\s\\S]*maven" ++ re_escape name ++ "Version\\s*=\\s*") ∧
    (∀ name : String, gradle_properties_core_template name =
      "^[\\s\\S]*" ++ re_escape (lowercase_first_char name) ++
        "ExtensionVersion\\s*=\\s*") := by
  exact ⟨fun name => rfl, fun name => rfl⟩

/-- Counterexample to claim C7: a non-core `AEP`-prefixed name maps to
`https://github.com/adobe/aepsdk-<suffix>-ios.git`, not to the claimed
`https://github.com/<org>/<lowercased-suffix>-ios.git`; and the five core
names all map to one single URL rather than five. -/
theorem C7_counterexample :
    get_ios_repo_name "AEPAssurance" =
      .ok "https://github.com/adobe/aepsdk-assurance-ios.git" ∧
    ios_repo_url_claimed "AEPAssurance" =
      "https://github.com/adobe/assurance-ios.git" ∧
    "https://github.com/adobe/aepsdk-assurance-ios.git" ≠
      ios_repo_url_claimed "AEPAssurance" ∧
    get_ios_repo_name "AEPIdentity" = get_ios_repo_name "AEPServices" := by
  exact ⟨rfl, rfl, by decide, rfl⟩

/-- Claim C7 as amended: a member of the five-element core-dependency set is
mapped to the single fixed core repository URL; any other `AEP`-prefixed name
is mapped to `https://github.com/adobe/aepsdk-<lowercased-suffix>-ios.git`;
a non-prefixed unknown name is a hard `error_exit` aborting the run; and the
resulting URL is regex-escaped and inserted into the
`.package(url:` … `.upToNextMajor(from:` anchor. -/
theorem C7_spm_anchor :
    (∀ name : String,
      name ∈ ["AEPCore", "AEPIdentity", "AEPLifecycle", "AEPServices", "AEPSignal"] →
        get_ios_repo_name name = .ok "https://github.com/adobe/aepsdk-core-ios.git") ∧
    (∀ name : String,
      name ∉ ["AEPCore", "AEPIdentity", "AEPLifecycle", "AEPServices", "AEPSignal"] →
      pyStartsWith name "AEP" = true →
        get_ios_repo_name name =
          .ok ("https://github.com/adobe/aepsdk-" ++ pyLower (pyDrop 3 name) ++ "-ios.git")) ∧
    (∀ name : String,
      name ∉ ["AEPCore", "AEPIdentity", "AEPLifecycle", "AEPServices", "AEPSignal"] →
      pyStartsWith name "AEP" = false →
        get_ios_repo_name name =
          .error ⟨"Unknown dependency",
            "Unknown dependency name. Cannot construct iOS repo URL."⟩) ∧
    (∀ (name url : String), get_ios_repo_name name = .ok url →
        swift_spm_template name =
          .ok ("^[\\s\\S]*\\.package\\(\\s*url:\\s*\"" ++ re_escape url ++
            "\"\\s*,\\s*\\.upToNextMajor\\(\\s*from:\\s*\"")) := by
  refine ⟨?_, ?_, ?_, ?_⟩
  · intro name h
    unfold get_ios_repo_name
    rw [if_pos h]
  · intro name h1 h2
    unfold get_ios_repo_name
    rw [if_neg h1, if_pos h2]
  · intro name h1 h2
    unfold get_ios_repo_name
    rw [if_neg h1, if_neg (by simp [h2])]
  · intro name url h
    simp only [swift_spm_template, h]
    rfl

/-- Witness for C7 at concrete names: a core name, a prefixed non-core name,
an unknown name, and the anchor built for the core URL. -/
theorem C7_spm_anchor_witness :
    get_ios_repo_name "AEPLifecycle" =
      .ok "https://github.com/adobe/aepsdk-core-ios.git" ∧
    get_ios_repo_name "AEPEdgeIdentity" =
      .ok ("https://github.com/adobe/aepsdk-" ++ pyLower (pyDrop 3 "AEPEdgeIdentity") ++
        "-ios.git") ∧
    get_ios_repo_name "Unknown" =
      .error ⟨"Unknown dependency",
        "Unknown dependency name. Cannot construct iOS repo URL."⟩ ∧
    swift_spm_template "AEPCore" =
      .ok ("^[\\s\\S]*\\.package\\(\\s*url:\\s*\"" ++
        re_escape "https://github.com/adobe/aepsdk-core-ios.git" ++
        "\"\\s*,\\s*\\.upToNextMajor\\(\\s*from:\\s*\"") := by
  exact ⟨C7_spm_anchor.1 "AEPLifecycle" (by decide),
    C7_spm_anchor.2.1 "AEPEdgeIdentity" (by decide) (by decide),
    C7_spm_anchor.2.2.1 "Unknown" (by decide) (by decide),
    C7_spm_anchor.2.2.2 "AEPCore" "https://github.com/adobe/aepsdk-core-ios.git" rfl⟩

/-- Counterexample to claim C5: under the strict test-version grammar
`[1-9]+\.[0-9]+\.[0-9]+` the token `10.2.3` (a zero merely inside the major
component) fails validation against expected version `10.2.3`, even though
the same line validates under the default grammar — the strict grammar does
not accept `10.2.3`. -/
theorem C5_counterexample :
    process_file_version_validate
      [⟨"version", "^[\\s\\S]*\\\"version\\\"\\s*:\\s*\"", some "10.2.3",
        some TEST_VERSION_REGEX⟩]
      ["    \"version\" : \"10.2.3\",\n".data] = false ∧
    lineMatched
      ⟨"version", "^[\\s\\S]*\\\"version\\\"\\s*:\\s*\"", some "10.2.3", none⟩
      "    \"version\" : \"10.2.3\",\n".data = true := by
  exact ⟨by decide, by decide⟩

/-- Claim C5 as amended: the strict test-version grammar rejects a leading
zero in the major component — in fact it rejects any version token whose
major component contains a zero digit anywhere, because `[1-9]+` permits only
the digits 1-9; so `01.2.3` and also `10.2.3` fail validation, while a major
component whose digits are all nonzero, such as `19.2.3`, is accepted. -/
theorem C5_test_grammar :
    (∀ (α : Type) (s : List Char) (p : Nat) (k : List Char → Nat → Option α),
      s.head? = some '0' →
        matchSeq [.plusC .nonzero, .lit ['.'], .plusC .digit, .lit ['.'], .plusC .digit]
          s p k = none) ∧
    compileRegex TEST_VERSION_REGEX =
      some [.plusC .nonzero, .lit ['.'], .plusC .digit, .lit ['.'], .plusC .digit] ∧
    process_file_version_validate
      [⟨"version", "^[\\s\\S]*\\\"version\\\"\\s*:\\s*\"", some "01.2.3",
        some TEST_VERSION_REGEX⟩]
      ["    \"version\" : \"01.2.3\",\n".data] = false ∧
    process_file_version_validate
      [⟨"version", "^[\\s\\S]*\\\"version\\\"\\s*:\\s*\"", some "10.2.3",
        some TEST_VERSION_REGEX⟩]
      ["    \"version\" : \"10.2.3\",\n".data] = false ∧
    process_file_version_validate
      [⟨"version", "^[\\s\\S]*\\\"version\\\"\\s*:\\s*\"", some "19.2.3",
        some TEST_VERSION_REGEX⟩]
      ["    \"version\" : \"19.2.3\",\n".data] = true := by
  refine ⟨?_, by decide, by decide, by decide, by decide⟩
  intro α s p k h
  cases s with
  | nil => simp at h
  | cons c s' =>
    have hc : c = '0' := by simpa using h
    subst hc
    simp only [matchSeq]
    rw [show CC.nonzero.mem '0' = false from rfl]
    simp

/-- Witness for C5's general conjunct: a token starting with `0` is rejected
by the strict grammar wherever the anchor ends. -/
theorem C5_test_grammar_witness :
    matchSeq [.plusC .nonzero, .lit ['.'], .plusC .digit, .lit ['.'], .plusC .digit]
      "01.2.3".data 17 (fun _ p2 => some ((17 : Nat), p2)) = none :=
  C5_test_grammar.1 (Nat × Nat) "01.2.3".data 17 (fun _ p2 => some (17, p2)) rfl

/-- Greedy backtracking takes the longest attempt first: if it succeeds, its
result is the overall result. -/
theorem tryStar_first {α : Type} (f : List Char → Nat → Option α)
    (s : List Char) (pos n : Nat) (r : α)
    (hf : f (s.drop n) (pos + n) = some r) : tryStar f s pos n = some r := by
  cases n with
  | zero => simpa using hf
  | succ m =>
    have hf' : f (s.drop (m + 1)) (pos + m + 1) = some r := hf
    simp [tryStar, hf']

/-- Greedy backtracking returns the attempt at the largest consumption `j`
that succeeds, provided all larger attempts fail. -/
theorem tryStar_of {α : Type} (f : List Char → Nat → Option α)
    (s : List Char) (pos : Nat) (r : α) :
    ∀ (n j : Nat), j ≤ n → f (s.drop j) (pos + j) = some r →
      (∀ i, j < i → i ≤ n → f (s.drop i) (pos + i) = none) →
      tryStar f s pos n = some r := by
  intro n
  induction n with
  | zero =>
    intro j hj hf _
    interval_cases j
    simpa using hf
  | succ m ih =>
    intro j hj hf hnone
    rcases Nat.eq_or_lt_of_le hj with rfl | hlt
    · have hf' : f (s.drop (m + 1)) (pos + m + 1) = some r := hf
      simp [tryStar, hf']
    · have hn : f (s.drop (m + 1)) (pos + m + 1) = none :=
        hnone (m + 1) hlt (le_refl _)
      simp only [tryStar, hn, Option.none_orElse]
      exact ih j (by omega) hf (fun i h1 h2 => hnone i h1 (by omega))

/-- Inversion for greedy backtracking: a success comes from some consumption
`j`, and every larger attempt fails. -/
theorem tryStar_eq_some {α : Type} (f : List Char → Nat → Option α)
    (s : List Char) (pos : Nat) :
    ∀ (n : Nat) (r : α), tryStar f s pos n = some r →
      ∃ j, j ≤ n ∧ f (s.drop j) (pos + j) = some r ∧
        ∀ i, j < i → i ≤ n → f (s.drop i) (pos + i) = none := by
  intro n
  induction n with
  | zero =>
    intro r h
    exact ⟨0, le_refl _, by simpa using h, fun i h1 h2 => absurd h2 (by omega)⟩
  | succ m ih =>
    intro r h
    cases hf : f (s.drop (m + 1)) (pos + m + 1) with
    | some r' =>
      refine ⟨m + 1, le_refl _, ?_, fun i h1 h2 => absurd h2 (by omega)⟩
      rw [tryStar, hf] at h
      rw [show f (s.drop (m + 1)) (pos + (m + 1)) = some r' from hf]
      simpa using h
    | none =>
      rw [tryStar, hf, Option.none_orElse] at h
      obtain ⟨j, hj, hfj, hnone⟩ := ih r h
      refine ⟨j, by omega, hfj, fun i h1 h2 => ?_⟩
      rcases Nat.eq_or_lt_of_le h2 with rfl | hi
      · exact hf
      · exact hnone i h1 (by omega)

/-- Greedy backtracking fails when every attempt fails. -/
theorem tryStar_none {α : Type} (f : List Char → Nat → Option α)
    (s : List Char) (pos : Nat) :
    ∀ n, (∀ i, i ≤ n → f (s.drop i) (pos + i) = none) →
      tryStar f s pos n = none := by
  intro n
  induction n with
  | zero => intro h; simpa using h 0 (le_refl _)
  | succ m ih =>
    intro h
    have hn : f (s.drop (m + 1)) (pos + m + 1) = none := h (m + 1) (le_refl _)
    rw [tryStar, hn, Option.none_orElse]
    exact ih (fun i hi => h i (by omega))

/-- A greedy class run over `w ++ t` stops exactly at the end of `w` when all
of `w` is in the class and the head of `t` is not. -/
theorem runLen_append (c : CC) (w t : List Char)
    (hw : ∀ x ∈ w, c.mem x = true) (ht : blockedHead c t) :
    runLen c (w ++ t) = w.length := by
  induction w with
  | nil =>
    cases t with
    | nil => rfl
    | cons d t' =>
      have hd : c.mem d = false := ht d rfl
      simp [runLen, List.takeWhile_cons, hd]
  | cons x w' ih =>
    have hx : c.mem x = true := hw x (List.mem_cons_self _ _)
    have ih' := ih (fun y hy => hw y (List.mem_cons_of_mem _ hy))
    simp only [List.cons_append, runLen, List.takeWhile_cons, hx, if_true,
      List.length_cons] at ih' ⊢
    omega

/-- The run length never exceeds the input length. -/
theorem runLen_le (c : CC) (s : List Char) : runLen c s ≤ s.length :=
  (s.takeWhile_sublist (p := c.mem)).length_le

/-- Characters inside the greedy-run region are in the class. -/
theorem mem_of_lt_runLen (c : CC) (s : List Char) (i : Nat)
    (h : i < runLen c s) : ∃ d, s[i]? = some d ∧ c.mem d = true := by
  induction s generalizing i with
  | nil => simp [runLen] at h
  | cons x s' ih =>
    cases hx : c.mem x with
    | false => simp [runLen, List.takeWhile_cons, hx] at h
    | true =>
      cases i with
      | zero => exact ⟨x, by simp, hx⟩
      | succ m =>
        have hrl : runLen c (x :: s') = runLen c s' + 1 := by
          simp [runLen, List.takeWhile_cons, hx]
        have hm : m < runLen c s' := by omega
        obtain ⟨d, hd1, hd2⟩ := ih m hm
        exact ⟨d, by simpa using hd1, hd2⟩

/-- The character right after the greedy-run region is outside the class. -/
theorem blockedHead_drop_runLen (c : CC) (s : List Char) :
    blockedHead c (s.drop (runLen c s)) := by
  induction s with
  | nil => intro d hd; simp at hd
  | cons x s' ih =>
    cases hx : c.mem x with
    | true =>
      intro d hd
      have hrl : runLen c (x :: s') = runLen c s' + 1 := by
        simp [runLen, List.takeWhile_cons, hx]
      rw [hrl, List.drop_succ_cons] at hd
      exact ih d hd
    | false =>
      intro d hd
      have hrl : runLen c (x :: s') = 0 := by
        simp [runLen, List.takeWhile_cons, hx]
      rw [hrl] at hd
      have hxd : x = d := by simpa using hd
      rw [← hxd]
      exact hx

/-- Deterministic walk across a greedy class star: `w` is consumed exactly. -/
theorem matchSeq_star_exact {α : Type} (c : CC) (rest : List Atom)
    (w t : List Char) (pos : Nat) (k : List Char → Nat → Option α) (r : α)
    (hw : ∀ x ∈ w, c.mem x = true) (ht : blockedHead c t)
    (hs : matchSeq rest t (pos + w.length) k = some r) :
    matchSeq (.starC c :: rest) (w ++ t) pos k = some r := by
  show tryStar (fun s' p' => matchSeq rest s' p' k) (w ++ t) pos
      (runLen c (w ++ t)) = some r
  rw [runLen_append c w t hw ht]
  apply tryStar_first
  rw [List.drop_left]
  exact hs

/-- Deterministic walk across a greedy class plus: nonempty `w` is consumed
exactly. -/
theorem matchSeq_plus_exact {α : Type} (c : CC) (rest : List Atom)
    (w t : List Char) (pos : Nat) (k : List Char → Nat → Option α) (r : α)
    (hw : ∀ x ∈ w, c.mem x = true) (hne : w ≠ []) (ht : blockedHead c t)
    (hs : matchSeq rest t (pos + w.length) k = some r) :
    matchSeq (.plusC c :: rest) (w ++ t) pos k = some r := by
  cases w with
  | nil => exact absurd rfl hne
  | cons x w' =>
    have hx : c.mem x = true := hw x (List.mem_cons_self _ _)
    show (if c.mem x = true then
        tryStar (fun s'' p'' => matchSeq rest s'' p'' k) (w' ++ t) (pos + 1)
          (runLen c (w' ++ t))
      else none) = some r
    rw [if_pos hx, runLen_append c w' t (fun y hy => hw y (List.mem_cons_of_mem _ hy)) ht]
    apply tryStar_first
    rw [List.drop_left]
    have : pos + 1 + w'.length = pos + (x :: w').length := by
      simp [List.length_cons]; omega
    rw [this]
    exact hs

/-- Agreement of indexed access under a successful prefix test. -/
theorem isPrefixOf_getElem (L u : List Char) (h : L.isPrefixOf u = true)
    (m : Nat) (hm : m < L.length) : u[m]? = L[m]? := by
  obtain ⟨t, rfl⟩ := List.isPrefixOf_iff_prefix.mp h
  rw [List.getElem?_append_left hm]

/-- A mismatch at an index below the pattern length refutes the prefix test. -/
theorem not_prefix_of_getElem_ne (L u : List Char) (m : Nat)
    (hm : m < L.length) (h : u[m]? ≠ L[m]?) : L.isPrefixOf u = false := by
  by_contra hc
  exact h (isPrefixOf_getElem L u (Bool.not_eq_false _ ▸ hc) m hm)

/-- A head mismatch refutes the prefix test. -/
theorem ne_head_not_prefix (c₀ : Char) (L₁ : List Char) (d : Char)
    (s : List Char) (h : ¬ c₀ = d) :
    (c₀ :: L₁).isPrefixOf (d :: s) = false := by
  show ((c₀ == d) && L₁.isPrefixOf s) = false
  simp [h]

/-- The anchor literal cannot restart inside the empty region. -/
theorem noRestart_nil (L R : List Char) : NoRestart L [] R :=
  fun i hi => absurd hi (by simp)

/-- Composing restart-freeness over an appended region. -/
theorem noRestart_append (L z₁ z₂ R : List Char)
    (h₁ : ∀ i, i < z₁.length → L.isPrefixOf (z₁.drop i ++ (z₂ ++ R)) = false)
    (h₂ : NoRestart L z₂ R) : NoRestart L (z₁ ++ z₂) R := by
  intro i hi
  by_cases hlt : i < z₁.length
  · rw [List.drop_append_of_le_length (by omega), List.append_assoc]
    exact h₁ i hlt
  · rw [show i = z₁.length + (i - z₁.length) by omega, List.drop_append]
    exact h₂ (i - z₁.length) (by simp [List.length_append] at hi; omega)

/-- A region whose characters all differ from the anchor head admits no
restart. -/
theorem noRestart_chars (c₀ : Char) (L₁ : List Char) (z R : List Char)
    (hz : ∀ x ∈ z, x ≠ c₀) : NoRestart (c₀ :: L₁) z R := by
  intro i hi
  rw [List.drop_eq_getElem_cons hi, List.cons_append]
  exact ne_head_not_prefix c₀ L₁ _ _
    (fun he => hz _ (List.getElem_mem hi) he.symm)

/-- Prepending a region of characters different from the anchor head. -/
theorem noRestart_chars_append (c₀ : Char) (L₁ : List Char) (w z R : List Char)
    (hw : ∀ x ∈ w, x ≠ c₀) (h₂ : NoRestart (c₀ :: L₁) z R) :
    NoRestart (c₀ :: L₁) (w ++ z) R := by
  apply noRestart_append _ _ _ _ _ h₂
  intro i hi
  rw [List.drop_eq_getElem_cons hi, List.cons_append]
  exact ne_head_not_prefix c₀ L₁ _ _
    (fun he => hw _ (List.getElem_mem hi) he.symm)

/-- Prepending a concrete literal that is `litClean` for the anchor. -/
theorem noRestart_lit_clean (L P z R : List Char)
    (hP : litClean L P = true) (h₂ : NoRestart L z R) :
    NoRestart L (P ++ z) R := by
  apply noRestart_append _ _ _ _ _ h₂
  intro o ho
  obtain ⟨m, hmL, hoP, hne⟩ := (by simpa [litClean] using hP :
    ∀ o < P.length, ∃ m < L.length, o + m < P.length ∧ P[o + m]? ≠ L[m]?)
    o ho
  apply not_prefix_of_getElem_ne L _ m hmL
  rw [List.getElem?_append_left (by rw [List.length_drop]; omega), List.getElem?_drop]
  exact hne

/-- Inside a border-free anchor literal, no realignment of the literal
against its own tail can match, whatever follows. -/
theorem self_clean_of_borderFree (L : List Char) (hbf : borderFree L = true) :
    ∀ i, 1 ≤ i → i < L.length → ∀ ext,
      L.isPrefixOf (L.drop i ++ ext) = false := by
  intro i h1 h2 ext
  obtain ⟨m, hmL, him, hne⟩ := (by simpa [borderFree] using hbf :
    ∀ i < L.length, 1 ≤ i →
      ∃ m < L.length, i + m < L.length ∧ L[i + m]? ≠ L[m]?)
    i h2 h1
  apply not_prefix_of_getElem_ne L _ m (by omega)
  rw [List.getElem?_append_left (by rw [List.length_drop]; omega), List.getElem?_drop]
  exact hne

/-- A greedy `[\s\S]*` run can reach every position of the subject. -/
theorem runLen_any (s : List Char) : runLen CC.any s = s.length := by
  induction s with
  | nil => rfl
  | cons x s' ih =>
    have hx : CC.any.mem x = true := rfl
    simp only [runLen, List.takeWhile_cons, hx, if_true, List.length_cons] at ih ⊢
    omega

/-- Characters inside a greedy-run prefix are in the class. -/
theorem take_runLen_mem (c : CC) (s : List Char) (j : Nat) (hj : j ≤ runLen c s) :
    ∀ x ∈ s.take j, c.mem x = true := by
  intro x hx
  obtain ⟨t, ht⟩ := s.takeWhile_prefix (p := c.mem)
  have he : s.take j = (s.takeWhile c.mem).take j := by
    conv_lhs => rw [← ht]
    rw [List.take_append_of_le_length hj]
  rw [he] at hx
  exact List.mem_takeWhile_imp (List.mem_of_mem_take hx)

/-- Pointwise-equal continuations give equal backtracking results. -/
theorem tryStar_congr {α : Type} (f f' : List Char → Nat → Option α)
    (h : ∀ t q, f t q = f' t q) (s : List Char) (pos : Nat) :
    ∀ n, tryStar f s pos n = tryStar f' s pos n := by
  intro n
  induction n with
  | zero => exact h s pos
  | succ m ih => rw [tryStar, tryStar, h, ih]

/-- Pointwise-equal continuations give equal matching results. -/
theorem matchSeq_congr_k {α : Type} :
    ∀ (as : List Atom) (s : List Char) (p : Nat)
      (k k' : List Char → Nat → Option α),
      (∀ t q, k t q = k' t q) → matchSeq as s p k = matchSeq as s p k' := by
  intro as
  induction as with
  | nil => intro s p k k' hk; exact hk s p
  | cons a rest ih =>
    intro s p k k' hk
    cases a with
    | bol =>
      show (if p = 0 then matchSeq rest s p k else none) =
        (if p = 0 then matchSeq rest s p k' else none)
      split
      · exact ih s p k k' hk
      · rfl
    | eol =>
      show (if s = [] ∨ s = ['\n'] then matchSeq rest s p k else none) =
        (if s = [] ∨ s = ['\n'] then matchSeq rest s p k' else none)
      split
      · exact ih s p k k' hk
      · rfl
    | lit L =>
      show (if L.isPrefixOf s then _ else none) = (if L.isPrefixOf s then _ else none)
      split
      · exact ih _ _ k k' hk
      · rfl
    | cls c =>
      cases s with
      | nil => rfl
      | cons x s' =>
        show (if c.mem x = true then _ else none) = (if c.mem x = true then _ else none)
        split
        · exact ih s' (p + 1) k k' hk
        · rfl
    | starC c =>
      exact tryStar_congr _ _ (fun t q => ih t q k k' hk) s p (runLen c s)
    | plusC c =>
      cases s with
      | nil => rfl
      | cons x s' =>
        show (if c.mem x = true then _ else none) = (if c.mem x = true then _ else none)
        split
        · exact tryStar_congr _ _ (fun t q => ih t q k k' hk) s' (p + 1) (runLen c s')
        · rfl

/-- Shifting the base position of a greedy backtracking loop. -/
theorem tryStar_shift {α : Type} (f : List Char → Nat → Option α)
    (s : List Char) (p d : Nat) :
    ∀ n, tryStar f s (d + p) n = tryStar (fun t q => f t (d + q)) s p n := by
  intro n
  induction n with
  | zero => rfl
  | succ m ih =>
    simp only [tryStar]
    rw [ih, show d + p + m + 1 = d + (p + m + 1) by omega]

/-- For atom lists without `^`, matching only shifts positions: the base
position can be factored out of the continuation. -/
theorem matchSeq_shift {α : Type} :
    ∀ (as : List Atom), Atom.bol ∉ as →
      ∀ (s : List Char) (p d : Nat) (k : List Char → Nat → Option α),
        matchSeq as s (d + p) k = matchSeq as s p (fun t q => k t (d + q)) := by
  intro as
  induction as with
  | nil => intro _ s p d k; rfl
  | cons a rest ih =>
    intro hb s p d k
    have hb' : Atom.bol ∉ rest := fun h => hb (List.mem_cons_of_mem _ h)
    cases a with
    | bol => exact absurd (List.mem_cons_self _ _) hb
    | eol =>
      show (if s = [] ∨ s = ['\n'] then matchSeq rest s (d + p) k else none) =
        (if s = [] ∨ s = ['\n'] then
          matchSeq rest s p (fun t q => k t (d + q)) else none)
      split
      · exact ih hb' s p d k
      · rfl
    | lit L =>
      show (if L.isPrefixOf s then matchSeq rest (s.drop L.length) (d + p + L.length) k
        else none) =
        (if L.isPrefixOf s then
          matchSeq rest (s.drop L.length) (p + L.length) (fun t q => k t (d + q))
        else none)
      split
      · rw [show d + p + L.length = d + (p + L.length) by omega]
        exact ih hb' _ _ d k
      · rfl
    | cls c =>
      cases s with
      | nil => rfl
      | cons x s' =>
        show (if c.mem x = true then matchSeq rest s' (d + p + 1) k else none) =
          (if c.mem x = true then
            matchSeq rest s' (p + 1) (fun t q => k t (d + q)) else none)
        split
        · rw [show d + p + 1 = d + (p + 1) by omega]
          exact ih hb' s' (p + 1) d k
        · rfl
    | starC c =>
      show tryStar (fun s' p' => matchSeq rest s' p' k) s (d + p) (runLen c s) =
        tryStar (fun s' p' => matchSeq rest s' p' (fun t q => k t (d + q))) s p
          (runLen c s)
      rw [tryStar_shift]
      exact tryStar_congr _ _ (fun t q => ih hb' t q d k) s p (runLen c s)
    | plusC c =>
      cases s with
      | nil => rfl
      | cons x s' =>
        show (if c.mem x = true then
          tryStar (fun s'' p'' => matchSeq rest s'' p'' k) s' (d + p + 1)
            (runLen c s') else none) =
          (if c.mem x = true then
            tryStar (fun s'' p'' => matchSeq rest s'' p'' (fun t q => k t (d + q)))
              s' (p + 1) (runLen c s') else none)
        split
        · rw [show d + p + 1 = d + (p + 1) by omega, tryStar_shift]
          exact tryStar_congr _ _ (fun t q => ih hb' t q d k) s' (p + 1) (runLen c s')
        · rfl

/-- Unfolding a literal step on a matching subject. -/
theorem matchSeq_lit_step {α : Type} (L : List Char) (rest : List Atom)
    (s : List Char) (pos : Nat) (k : List Char → Nat → Option α)
    (h : L.isPrefixOf s = true) :
    matchSeq (.lit L :: rest) s pos k =
      matchSeq rest (s.drop L.length) (pos + L.length) k := by
  simp [matchSeq, h]

/-- A failed literal step. -/
theorem matchSeq_lit_none {α : Type} (L : List Char) (rest : List Atom)
    (s : List Char) (pos : Nat) (k : List Char → Nat → Option α)
    (h : L.isPrefixOf s = false) :
    matchSeq (.lit L :: rest) s pos k = none := by
  simp [matchSeq, h]

/-- Inversion of a literal step. -/
theorem matchSeq_lit_inv {α : Type} (L : List Char) (rest : List Atom)
    (s : List Char) (pos : Nat) (k : List Char → Nat → Option α) (r : α)
    (h : matchSeq (.lit L :: rest) s pos k = some r) :
    ∃ t, s = L ++ t ∧ matchSeq rest t (pos + L.length) k = some r := by
  by_cases hp : L.isPrefixOf s = true
  · obtain ⟨t, rfl⟩ := List.isPrefixOf_iff_prefix.mp hp
    refine ⟨t, rfl, ?_⟩
    rw [matchSeq_lit_step L rest _ pos k hp, List.drop_left] at h
    exact h
  · rw [matchSeq_lit_none L rest s pos k (Bool.not_eq_true _ ▸ hp)] at h
    cases h

/-- Inversion of a greedy class star: some class-only prefix is consumed. -/
theorem matchSeq_star_inv {α : Type} (c : CC) (rest : List Atom)
    (s : List Char) (pos : Nat) (k : List Char → Nat → Option α) (r : α)
    (h : matchSeq (.starC c :: rest) s pos k = some r) :
    ∃ w t, s = w ++ t ∧ (∀ x ∈ w, c.mem x = true) ∧
      matchSeq rest t (pos + w.length) k = some r := by
  obtain ⟨j, hj, hfj, -⟩ := tryStar_eq_some _ s pos (runLen c s) r h
  refine ⟨s.take j, s.drop j, (List.take_append_drop j s).symm,
    take_runLen_mem c s j hj, ?_⟩
  rw [List.length_take, min_eq_left (le_trans hj (runLen_le c s))]
  exact hfj

/-- Inversion of a greedy class plus: some nonempty class-only prefix is
consumed. -/
theorem matchSeq_plus_inv {α : Type} (c : CC) (rest : List Atom)
    (s : List Char) (pos : Nat) (k : List Char → Nat → Option α) (r : α)
    (h : matchSeq (.plusC c :: rest) s pos k = some r) :
    ∃ w t, s = w ++ t ∧ w ≠ [] ∧ (∀ x ∈ w, c.mem x = true) ∧
      matchSeq rest t (pos + w.length) k = some r := by
  cases s with
  | nil => cases h
  | cons x s' =>
    by_cases hx : c.mem x = true
    · have h' : tryStar (fun s'' p'' => matchSeq rest s'' p'' k) s' (pos + 1)
          (runLen c s') = some r := by
        rw [show matchSeq (.plusC c :: rest) (x :: s') pos k =
          (if c.mem x = true then
            tryStar (fun s'' p'' => matchSeq rest s'' p'' k) s' (pos + 1)
              (runLen c s') else none) from rfl, if_pos hx] at h
        exact h
      obtain ⟨j, hj, hfj, -⟩ := tryStar_eq_some _ s' (pos + 1) (runLen c s') r h'
      refine ⟨x :: s'.take j, s'.drop j, by simp, by simp,
        fun y hy => ?_, ?_⟩
      · rcases List.mem_cons.mp hy with rfl | hy'
        · exact hx
        · exact take_runLen_mem c s' j hj y hy'
      · rw [List.length_cons, List.length_take,
          min_eq_left (le_trans hj (runLen_le c s'))]
        rw [show pos + (j + 1) = pos + 1 + j by omega]
        exact hfj
    · rw [show matchSeq (.plusC c :: rest) (x :: s') pos k =
        (if c.mem x = true then
          tryStar (fun s'' p'' => matchSeq rest s'' p'' k) s' (pos + 1)
            (runLen c s') else none) from rfl, if_neg hx] at h
      cases h

/-- Inversion of a final greedy class plus under an everywhere-successful
continuation: the full class run is consumed and the remainder starts
outside the class. -/
theorem matchSeq_plus_final_inv {α : Type} (c : CC)
    (s : List Char) (pos : Nat) (k : List Char → Nat → Option α) (r : α)
    (hk : ∀ t q, (k t q).isSome = true)
    (h : matchSeq [.plusC c] s pos k = some r) :
    ∃ w t, s = w ++ t ∧ w ≠ [] ∧ (∀ x ∈ w, c.mem x = true) ∧
      blockedHead c t ∧ k t (pos + w.length) = some r := by
  cases s with
  | nil => cases h
  | cons x s' =>
    by_cases hx : c.mem x = true
    · have h' : tryStar (fun s'' p'' => matchSeq [] s'' p'' k) s' (pos + 1)
          (runLen c s') = some r := by
        rw [show matchSeq [.plusC c] (x :: s') pos k =
          (if c.mem x = true then
            tryStar (fun s'' p'' => matchSeq [] s'' p'' k) s' (pos + 1)
              (runLen c s') else none) from rfl, if_pos hx] at h
        exact h
      obtain ⟨j, hj, hfj, hmax⟩ := tryStar_eq_some _ s' (pos + 1) (runLen c s') r h'
      have hje : j = runLen c s' := by
        by_contra hne
        have hlt : j < runLen c s' := lt_of_le_of_ne hj hne
        have := hmax (runLen c s') hlt (le_refl _)
        have hsome := hk (s'.drop (runLen c s')) (pos + 1 + runLen c s')
        rw [show matchSeq [] (s'.drop (runLen c s')) (pos + 1 + runLen c s') k =
          k (s'.drop (runLen c s')) (pos + 1 + runLen c s') from rfl] at this
        rw [this] at hsome
        cases hsome
      subst hje
      refine ⟨x :: s'.take (runLen c s'), s'.drop (runLen c s'), by simp, by simp,
        fun y hy => ?_, blockedHead_drop_runLen c s', ?_⟩
      · rcases List.mem_cons.mp hy with rfl | hy'
        · exact hx
        · exact take_runLen_mem c s' _ (le_refl _) y hy'
      · rw [List.length_cons, List.length_take, min_eq_left (runLen_le c s')]
        rw [show pos + (runLen c s' + 1) = pos + 1 + runLen c s' by omega]
        exact hfj
    · rw [show matchSeq [.plusC c] (x :: s') pos k =
        (if c.mem x = true then
          tryStar (fun s'' p'' => matchSeq [] s'' p'' k) s' (pos + 1)
            (runLen c s') else none) from rfl, if_neg hx] at h
      cases h

/-- The dotted-triple version regex consumes exactly a well-formed token when
the remainder does not start with a digit. -/
theorem tripleV_consume {α : Type} (first : CC) (hdot : first.mem '.' = false)
    (a b c : List Char) (hac : ∀ x ∈ a, first.mem x = true) (hane : a ≠ [])
    (hbc : ∀ x ∈ b, CC.digit.mem x = true) (hbne : b ≠ [])
    (hcc : ∀ x ∈ c, CC.digit.mem x = true) (hcne : c ≠ [])
    (R : List Char) (hR : blockedHead CC.digit R)
    (pos : Nat) (k : List Char → Nat → Option α) (r : α)
    (hk : k R (pos + (a ++ '.' :: (b ++ '.' :: c)).length) = some r) :
    matchSeq [.plusC first, .lit ['.'], .plusC .digit, .lit ['.'], .plusC .digit]
      ((a ++ '.' :: (b ++ '.' :: c)) ++ R) pos k = some r := by
  have hsplit : (a ++ '.' :: (b ++ '.' :: c)) ++ R =
      a ++ ('.' :: (b ++ ('.' :: (c ++ R)))) := by simp
  rw [hsplit]
  apply matchSeq_plus_exact first _ a _ pos k r hac hane
    (fun d hd => by simp at hd; rw [← hd]; exact hdot)
  rw [matchSeq_lit_step _ _ _ _ _ (by simp [List.isPrefixOf])]
  simp only [List.length_cons, List.drop_succ_cons, List.drop_zero]
  apply matchSeq_plus_exact .digit _ b _ _ k r hbc hbne
    (fun d hd => by simp at hd; rw [← hd]; rfl)
  rw [matchSeq_lit_step _ _ _ _ _ (by simp [List.isPrefixOf])]
  simp only [List.length_cons, List.drop_succ_cons, List.drop_zero]
  apply matchSeq_plus_exact .digit _ c R _ k r hcc hcne hR
  show k R (pos + a.length + ([].length + 1) + b.length + ([].length + 1) +
    c.length) = some r
  have harith : pos + a.length + (List.length ([] : List Char) + 1) + b.length +
      (List.length ([] : List Char) + 1) + c.length =
      pos + (a ++ '.' :: (b ++ '.' :: c)).length := by simp; omega
  rw [harith]
  exact hk

/-- Inversion for the dotted-triple version regex under an always-successful
continuation: the remainder after the match cannot start with a digit. -/
theorem tripleV_inv {α : Type} (first : CC)
    (s : List Char) (pos : Nat) (k : List Char → Nat → Option α) (r : α)
    (hk : ∀ t q, (k t q).isSome = true)
    (h : matchSeq [.plusC first, .lit ['.'], .plusC .digit, .lit ['.'], .plusC .digit]
      s pos k = some r) :
    ∃ v R, s = v ++ R ∧ blockedHead CC.digit R ∧
      k R (pos + v.length) = some r := by
  obtain ⟨w1, t1, rfl, hw1ne, hw1, h1⟩ := matchSeq_plus_inv first _ s pos k r h
  obtain ⟨t2, rfl, h2⟩ := matchSeq_lit_inv ['.'] _ t1 _ k r h1
  obtain ⟨w2, t3, rfl, hw2ne, hw2, h3⟩ := matchSeq_plus_inv .digit _ t2 _ k r h2
  obtain ⟨t4, rfl, h4⟩ := matchSeq_lit_inv ['.'] _ t3 _ k r h3
  obtain ⟨w3, R, rfl, hw3ne, hw3, hbl, h5⟩ :=
    matchSeq_plus_final_inv .digit t4 _ k r hk h4
  refine ⟨w1 ++ '.' :: (w2 ++ '.' :: w3), R, by simp, hbl, ?_⟩
  rw [show pos + (w1 ++ '.' :: (w2 ++ '.' :: w3)).length =
    pos + w1.length + ['.'].length + w2.length + ['.'].length + w3.length by
      simp; omega]
  exact h5

/-- The rest-of-line version regex consumes exactly the newline-free text
when followed by nothing or a final newline. -/
theorem restV_consume {α : Type} (X R : List Char)
    (hX : ∀ x ∈ X, x ≠ '\n') (hR : R = [] ∨ R = ['\n'])
    (pos : Nat) (k : List Char → Nat → Option α) (r : α)
    (hk : k R (pos + X.length) = some r) :
    matchSeq [.starC .notNl, .eol] (X ++ R) pos k = some r := by
  apply matchSeq_star_exact .notNl _ X R pos k r
    (fun x hx => by simp [CC.mem, hX x hx])
    (fun d hd => by
      rcases hR with rfl | rfl
      · simp at hd
      · simp at hd
        rw [← hd]
        rfl)
  show (if R = [] ∨ R = ['\n'] then k R (pos + X.length) else none) = some r
  rw [if_pos hR]
  exact hk

/-- Inversion for the rest-of-line version regex: the remainder is empty or
a single final newline. -/
theorem restV_inv {α : Type} (s : List Char) (pos : Nat)
    (k : List Char → Nat → Option α) (r : α)
    (h : matchSeq [.starC .notNl, .eol] s pos k = some r) :
    ∃ v R, s = v ++ R ∧ (∀ x ∈ v, x ≠ '\n') ∧ (R = [] ∨ R = ['\n']) ∧
      k R (pos + v.length) = some r := by
  obtain ⟨w, t, rfl, hw, h1⟩ := matchSeq_star_inv .notNl _ s pos k r h
  have h2 : (if t = [] ∨ t = ['\n'] then k t (pos + w.length) else none) = some r := h1
  by_cases ht : t = [] ∨ t = ['\n']
  · rw [if_pos ht] at h2
    exact ⟨w, t, rfl, fun x hx => by simpa [CC.mem] using hw x hx, ht, h2⟩
  · rw [if_neg ht] at h2
    cases h2

/-- Reduction of a generated two-group match: `^[\s\S]*` turns the anchored
match into a greedy scan for the last starting position of the anchor tail
followed by the version regex. -/
theorem pyMatchTwo_anchor (T V : List Atom) (s : List Char) :
    pyMatchTwo (.bol :: .starC .any :: T) V s =
      tryStar (fun s' p' => matchTV T V s' p') s 0 s.length := by
  show (if (0 : Nat) = 0 then
    tryStar (fun s' p' => matchSeq T s' p'
      (fun s1 p1 => matchSeq V s1 p1 fun _ p2 => some (p1, p2))) s 0
      (runLen .any s) else none) = _
  rw [if_pos rfl, runLen_any]
  rfl

/-- An anchor tail starting with a failed literal cannot match. -/
theorem matchTV_none_of_not_prefix (L : List Char) (T' V : List Atom)
    (s : List Char) (j : Nat) (h : L.isPrefixOf s = false) :
    matchTV (.lit L :: T') V s j = none := by
  show matchSeq (.lit L :: T') s j _ = none
  exact matchSeq_lit_none _ _ _ _ _ h

/-- Pointwise equi-definedness of continuations gives equi-definedness of
backtracking results. -/
theorem tryStar_isSome_congr {α β : Type} (f : List Char → Nat → Option α)
    (f' : List Char → Nat → Option β)
    (h : ∀ t q, (f t q).isSome = (f' t q).isSome) (s : List Char) (pos : Nat) :
    ∀ n, (tryStar f s pos n).isSome = (tryStar f' s pos n).isSome := by
  intro n
  induction n with
  | zero => exact h s pos
  | succ m ih =>
    rw [tryStar, tryStar]
    cases hx : f (s.drop (m + 1)) (pos + m + 1) with
    | some v =>
      have hx' := h (s.drop (m + 1)) (pos + m + 1)
      rw [hx] at hx'
      cases hy : f' (s.drop (m + 1)) (pos + m + 1) with
      | some w => simp [hx, hy]
      | none => rw [hy] at hx'; cases hx'
    | none =>
      have hx' := h (s.drop (m + 1)) (pos + m + 1)
      rw [hx] at hx'
      cases hy : f' (s.drop (m + 1)) (pos + m + 1) with
      | some w => rw [hy] at hx'; cases hx'
      | none => simpa [hx, hy] using ih

/-- Pointwise equi-definedness of continuations gives equi-definedness of
matching results. -/
theorem matchSeq_isSome_congr {α β : Type} :
    ∀ (as : List Atom) (s : List Char) (p : Nat)
      (k : List Char → Nat → Option α) (k' : List Char → Nat → Option β),
      (∀ t q, (k t q).isSome = (k' t q).isSome) →
      (matchSeq as s p k).isSome = (matchSeq as s p k').isSome := by
  intro as
  induction as with
  | nil => intro s p k k' hk; exact hk s p
  | cons a rest ih =>
    intro s p k k' hk
    cases a with
    | bol =>
      show (if p = 0 then matchSeq rest s p k else none).isSome =
        (if p = 0 then matchSeq rest s p k' else none).isSome
      split
      · exact ih s p k k' hk
      · rfl
    | eol =>
      show (if s = [] ∨ s = ['\n'] then matchSeq rest s p k else none).isSome =
        (if s = [] ∨ s = ['\n'] then matchSeq rest s p k' else none).isSome
      split
      · exact ih s p k k' hk
      · rfl
    | lit L =>
      show (if L.isPrefixOf s then
          matchSeq rest (s.drop L.length) (p + L.length) k else none).isSome =
        (if L.isPrefixOf s then
          matchSeq rest (s.drop L.length) (p + L.length) k' else none).isSome
      split
      · exact ih _ _ k k' hk
      · rfl
    | cls c =>
      cases s with
      | nil => rfl
      | cons x s' =>
        show (if c.mem x = true then matchSeq rest s' (p + 1) k else none).isSome =
          (if c.mem x = true then matchSeq rest s' (p + 1) k' else none).isSome
        split
        · exact ih s' (p + 1) k k' hk
        · rfl
    | starC c =>
      exact tryStar_isSome_congr _ _ (fun t q => ih t q k k' hk) s p (runLen c s)
    | plusC c =>
      cases s with
      | nil => rfl
      | cons x s' =>
        show (if c.mem x = true then
            tryStar (fun s'' p'' => matchSeq rest s'' p'' k) s' (p + 1)
              (runLen c s') else none).isSome =
          (if c.mem x = true then
            tryStar (fun s'' p'' => matchSeq rest s'' p'' k') s' (p + 1)
              (runLen c s') else none).isSome
        split
        · exact tryStar_isSome_congr _ _ (fun t q => ih t q k k' hk) s' (p + 1)
            (runLen c s')
        · rfl

/-- Definedness of the anchor-tail-plus-version match does not depend on the
base position (no `^` occurs in a generated tail or version regex). -/
theorem matchTV_isSome_shift (T V : List Atom)
    (hT : Atom.bol ∉ T) (hV : Atom.bol ∉ V) (s : List Char) (j : Nat) :
    (matchTV T V s j).isSome = (matchTV T V s 0).isSome := by
  have hshift : matchTV T V s j =
      matchSeq T s 0 (fun t q =>
        matchSeq V t (j + q) fun _ p2 => some (j + q, p2)) := by
    exact matchSeq_shift T hT s 0 j
      (fun s1 p1 => matchSeq V s1 p1 fun _ p2 => some (p1, p2))
  rw [hshift]
  apply matchSeq_isSome_congr
  intro t q
  rw [matchSeq_shift V hV t q j]
  apply matchSeq_isSome_congr
  intro t2 q2
  rfl

/-- Failure of the anchor-tail match transfers between base positions. -/
theorem matchTV_none_shift (T V : List Atom)
    (hT : Atom.bol ∉ T) (hV : Atom.bol ∉ V) (s : List Char) (j j' : Nat)
    (h : matchTV T V s j = none) : matchTV T V s j' = none := by
  have h1 := matchTV_isSome_shift T V hT hV s j
  have h2 := matchTV_isSome_shift T V hT hV s j'
  rw [h] at h1
  cases hc : matchTV T V s j' with
  | none => rfl
  | some v => rw [hc] at h2; rw [← h2] at h1; cases h1

/-- Segment atoms never contain `^`. -/
theorem segAtoms_no_bol : ∀ segs : List Seg, Atom.bol ∉ segAtoms segs := by
  intro segs
  induction segs with
  | nil => simp [segAtoms]
  | cons a r ih =>
    cases a <;> · intro h
                  rcases List.mem_cons.mp h with h' | h'
                  · cases h'
                  · exact ih h'

/-- Inversion over a segment list: a successful match decomposes the subject
into a segment span and a remainder handed to the continuation. -/
theorem matchSeq_segs_inv {α : Type} :
    ∀ (segs : List Seg) (s : List Char) (pos : Nat)
      (k : List Char → Nat → Option α) (r : α),
      matchSeq (segAtoms segs) s pos k = some r →
      ∃ u t, s = u ++ t ∧ SegSpan segs u ∧ k t (pos + u.length) = some r := by
  intro segs
  induction segs with
  | nil =>
    intro s pos k r h
    exact ⟨[], s, rfl, rfl, by simpa using h⟩
  | cons a rest ih =>
    intro s pos k r h
    cases a with
    | ws =>
      obtain ⟨w, t1, rfl, hw, h1⟩ := matchSeq_star_inv .ws (segAtoms rest) s pos k r h
      obtain ⟨u', t, rfl, hsp, hk⟩ := ih t1 (pos + w.length) k r h1
      refine ⟨w ++ u', t, by simp, ⟨w, u', rfl, hw, hsp⟩, ?_⟩
      rw [show pos + (w ++ u').length = pos + w.length + u'.length by simp; omega]
      exact hk
    | lit P =>
      obtain ⟨t1, rfl, h1⟩ := matchSeq_lit_inv P (segAtoms rest) s pos k r h
      obtain ⟨u', t, rfl, hsp, hk⟩ := ih t1 (pos + P.length) k r h1
      refine ⟨P ++ u', t, by simp, ⟨u', rfl, hsp⟩, ?_⟩
      rw [show pos + (P ++ u').length = pos + P.length + u'.length by simp; omega]
      exact hk
    | qcls =>
      cases s with
      | nil => cases h
      | cons q s' =>
        by_cases hq : CC.quote.mem q = true
        · have h1 : matchSeq (segAtoms rest) s' (pos + 1) k = some r := by
            rw [show matchSeq (segAtoms (.qcls :: rest)) (q :: s') pos k =
              (if CC.quote.mem q = true then matchSeq (segAtoms rest) s' (pos + 1) k
               else none) from rfl, if_pos hq] at h
            exact h
          obtain ⟨u', t, rfl, hsp, hk⟩ := ih s' (pos + 1) k r h1
          refine ⟨q :: u', t, rfl, ⟨q, u', rfl, hq, hsp⟩, ?_⟩
          rw [show pos + (q :: u').length = pos + 1 + u'.length by simp; omega]
          exact hk
        · rw [show matchSeq (segAtoms (.qcls :: rest)) (q :: s') pos k =
            (if CC.quote.mem q = true then matchSeq (segAtoms rest) s' (pos + 1) k
             else none) from rfl, if_neg hq] at h
          cases h

/-- Quote characters are not whitespace. -/
theorem quote_not_ws (q : Char) (hq : CC.quote.mem q = true) : wsChar q = false := by
  rcases (by simpa [CC.mem] using hq : q = '"' ∨ q = '\'') with rfl | rfl <;> rfl

/-- Decorating a segment span with blocking facts for the rescan, using the
structural check and a blocker at the very end. -/
theorem segSpan_to_B : ∀ (segs : List Seg) (u t : List Char),
    SegSpan segs u → wsOK segs = true → blockedHead .ws t →
    SegSpanB segs u t := by
  intro segs
  induction segs with
  | nil => intro u t hs _ _; exact hs
  | cons a rest ih =>
    intro u t hs hok ht
    cases a with
    | ws =>
      obtain ⟨w, u', rfl, hw, hsp⟩ := hs
      have hok' : wsOK rest = true := by
        have := hok
        simp only [wsOK, Bool.and_eq_true] at this
        exact this.2
      refine ⟨w, u', rfl, hw, ?_, ih u' t hsp hok' ht⟩
      cases rest with
      | nil =>
        have : u' = [] := hsp
        subst this
        simpa using ht
      | cons b rest' =>
        cases b with
        | ws =>
          exfalso
          simp [wsOK] at hok
        | lit P =>
          obtain ⟨u'', rfl, -⟩ := hsp
          cases P with
          | nil => simp [wsOK] at hok
          | cons c P' =>
            intro d hd
            have hc : wsChar c = false := by
              simp only [wsOK, Bool.and_eq_true] at hok
              simpa using hok.1
            simp only [List.cons_append, List.append_assoc, List.head?_cons] at hd
            rw [show d = c by simpa using hd.symm]
            simpa [CC.mem] using hc
        | qcls =>
          obtain ⟨q, u'', rfl, hq, -⟩ := hsp
          intro d hd
          simp only [List.cons_append, List.head?_cons] at hd
          rw [show d = q by simpa using hd.symm]
          simpa [CC.mem] using quote_not_ws q hq
    | lit P =>
      obtain ⟨u', rfl, hsp⟩ := hs
      exact ⟨u', rfl, ih u' t hsp (by simpa [wsOK] using hok) ht⟩
    | qcls =>
      obtain ⟨q, u', rfl, hq, hsp⟩ := hs
      exact ⟨q, u', rfl, hq, ih u' t hsp (by simpa [wsOK] using hok) ht⟩

/-- Rescanning a decorated segment span consumes exactly the span. -/
theorem segSpanB_walk {α : Type} :
    ∀ (segs : List Seg) (u t : List Char) (pos : Nat)
      (k : List Char → Nat → Option α) (r : α),
      SegSpanB segs u t → k t (pos + u.length) = some r →
      matchSeq (segAtoms segs) (u ++ t) pos k = some r := by
  intro segs
  induction segs with
  | nil =>
    intro u t pos k r hs hk
    have : u = [] := hs
    subst this
    simpa using hk
  | cons a rest ih =>
    intro u t pos k r hs hk
    cases a with
    | ws =>
      obtain ⟨w, u', rfl, hw, hbl, hsp⟩ := hs
      rw [List.append_assoc]
      apply matchSeq_star_exact .ws (segAtoms rest) w (u' ++ t) pos k r
        (fun x hx => by simpa [CC.mem] using hw x hx) hbl
      apply ih u' t (pos + w.length) k r hsp
      rw [show pos + w.length + u'.length = pos + (w ++ u').length by
        simp only [List.length_append]; omega]
      exact hk
    | lit P =>
      obtain ⟨u', rfl, hsp⟩ := hs
      rw [List.append_assoc]
      show matchSeq (.lit P :: segAtoms rest) (P ++ (u' ++ t)) pos k = some r
      rw [matchSeq_lit_step P (segAtoms rest) _ pos k
        (List.isPrefixOf_iff_prefix.mpr ⟨u' ++ t, rfl⟩), List.drop_left]
      apply ih u' t (pos + P.length) k r hsp
      rw [show pos + P.length + u'.length = pos + (P ++ u').length by
        simp only [List.length_append]; omega]
      exact hk
    | qcls =>
      obtain ⟨q, u', rfl, hq, hsp⟩ := hs
      show (if CC.quote.mem q = true then
        matchSeq (segAtoms rest) (u' ++ t) (pos + 1) k else none) = some r
      rw [if_pos hq]
      apply ih u' t (pos + 1) k r hsp
      rw [show pos + 1 + u'.length = pos + (q :: u').length by simp; omega]
      exact hk

/-- A blocked head extends over an append when the first part is nonempty. -/
theorem blockedHead_append_left (c : CC) (X t : List Char)
    (hX : blockedHead c X) (hne : X ≠ []) : blockedHead c (X ++ t) := by
  cases X with
  | nil => exact absurd rfl hne
  | cons x X' =>
    intro d hd
    exact hX d (by simpa using hd)

/-- Stability of a generated two-group match under rewriting the version
span: if the pattern `^[\s\S]*` + literal `L` + segments + version regex `V`
matches `s` with group ends `(p1, p2)`, and the replacement text `X` lies in
the version grammar (packaged through `hVcons`), cannot host a restart of
the anchor (`hNR`, `hself`), and does not start with whitespace, then the
same pattern matches the rewritten line with group ends `(p1, p1 + |X|)` —
the anchor resolves at the same spot and group 2 captures exactly `X`. -/
theorem anchored_stable
    (L : List Char) (hL : L ≠ [])
    (segs : List Seg) (hwok : wsOK segs = true)
    (V : List Atom) (hVnb : Atom.bol ∉ V)
    (VTail : List Char → Prop)
    (hVinv : ∀ (s : List Char) (pos : Nat)
        (k : List Char → Nat → Option (Nat × Nat)) (r : Nat × Nat),
        (∀ t q, (k t q).isSome = true) →
        matchSeq V s pos k = some r →
        ∃ v R, s = v ++ R ∧ VTail R ∧ k R (pos + v.length) = some r)
    (X : List Char) (hXne : X ≠ []) (hXws : blockedHead .ws X)
    (hVcons : ∀ (R : List Char) (pos : Nat)
        (k : List Char → Nat → Option (Nat × Nat)) (r : Nat × Nat),
        VTail R → k R (pos + X.length) = some r →
        matchSeq V (X ++ R) pos k = some r)
    (hNR : ∀ u R, SegSpan segs u → VTail R → NoRestart L (u ++ X) R)
    (hself : ∀ u R, SegSpan segs u → VTail R → ∀ i, 1 ≤ i → i < L.length →
        L.isPrefixOf (L.drop i ++ (u ++ (X ++ R))) = false)
    (s : List Char) (p1 p2 : Nat)
    (hm : pyMatchTwo (.bol :: .starC .any :: .lit L :: segAtoms segs) V s =
      some (p1, p2)) :
    0 < p1 ∧ p1 ≤ p2 ∧ p2 ≤ s.length ∧
    pyMatchTwo (.bol :: .starC .any :: .lit L :: segAtoms segs) V
      (s.take p1 ++ X ++ s.drop p2) = some (p1, p1 + X.length) := by
  rw [pyMatchTwo_anchor] at hm
  obtain ⟨j, hjle, hfj, hmax⟩ := tryStar_eq_some _ s 0 s.length _ hm
  have hfj' : matchSeq (.lit L :: segAtoms segs) (s.drop j) (0 + j)
      (fun s1 q1 => matchSeq V s1 q1 fun _ q2 => some (q1, q2)) =
      some (p1, p2) := hfj
  obtain ⟨t1, hdrop, h1⟩ := matchSeq_lit_inv L _ _ _ _ _ hfj'
  obtain ⟨u, t2, ht1, hspan, hk1⟩ := matchSeq_segs_inv segs t1 _ _ _ h1
  have hk1' : matchSeq V t2 (0 + j + L.length + u.length)
      (fun _ q2 => some (0 + j + L.length + u.length, q2)) = some (p1, p2) := hk1
  obtain ⟨v, R, ht2, hVt, hkv⟩ :=
    hVinv t2 (0 + j + L.length + u.length)
      (fun _ q2 => some (0 + j + L.length + u.length, q2)) _
      (fun _ _ => rfl) hk1'
  have hpe : ((0 + j + L.length + u.length,
      0 + j + L.length + u.length + v.length) : Nat × Nat) = (p1, p2) :=
    Option.some.inj hkv
  have hp1 : p1 = 0 + j + L.length + u.length := (congrArg Prod.fst hpe).symm
  have hp2 : p2 = 0 + j + L.length + u.length + v.length :=
    (congrArg Prod.snd hpe).symm
  have hLpos : 0 < L.length := List.length_pos.mpr hL
  have hlenTake : (s.take j).length = j := by
    rw [List.length_take]; omega
  have hsplit : s = s.take j ++ (L ++ (u ++ (v ++ R))) := by
    conv_lhs => rw [← List.take_append_drop j s]
    rw [hdrop, ht1, ht2]
  have hslen : s.length = j + L.length + u.length + v.length + R.length := by
    conv_lhs => rw [hsplit]
    simp only [List.length_append, hlenTake]
    omega
  have hs1 : s = (s.take j ++ (L ++ u)) ++ (v ++ R) := by
    conv_lhs => rw [hsplit]
    simp [List.append_assoc]
  have hs2 : s = ((s.take j ++ (L ++ u)) ++ v) ++ R := by
    conv_lhs => rw [hsplit]
    simp [List.append_assoc]
  have htake1 : s.take p1 = s.take j ++ (L ++ u) := by
    have hplen : p1 = (s.take j ++ (L ++ u)).length := by
      simp only [List.length_append, hlenTake]; omega
    conv_lhs => rw [hs1, hplen]
    exact List.take_left _ _
  have hdropP2 : s.drop p2 = R := by
    have hplen : p2 = ((s.take j ++ (L ++ u)) ++ v).length := by
      simp only [List.length_append, hlenTake]; omega
    conv_lhs => rw [hs2, hplen]
    exact List.drop_left _ _
  have hs' : s.take p1 ++ X ++ s.drop p2 =
      s.take j ++ (L ++ (u ++ (X ++ R))) := by
    rw [htake1, hdropP2]; simp [List.append_assoc]
  have hs'len : (s.take p1 ++ X ++ s.drop p2).length =
      j + L.length + u.length + X.length + R.length := by
    rw [hs']; simp only [List.length_append, hlenTake]; omega
  have hTnb : Atom.bol ∉ (Atom.lit L :: segAtoms segs) := by
    intro h
    rcases List.mem_cons.mp h with h' | h'
    · cases h'
    · exact segAtoms_no_bol segs h'
  refine ⟨by omega, by omega, by omega, ?_⟩
  rw [pyMatchTwo_anchor]
  refine tryStar_of _ _ _ _ _ j (by rw [hs'len]; omega) ?_ ?_
  · show matchTV (.lit L :: segAtoms segs) V
      ((s.take p1 ++ X ++ s.drop p2).drop j) (0 + j) =
      some (p1, p1 + X.length)
    have hdj : (s.take p1 ++ X ++ s.drop p2).drop j =
        L ++ (u ++ (X ++ R)) := by
      have h0 := List.drop_left (s.take j) (L ++ (u ++ (X ++ R)))
      rw [hlenTake] at h0
      rw [hs']
      exact h0
    rw [hdj]
    show matchSeq (.lit L :: segAtoms segs) (L ++ (u ++ (X ++ R))) (0 + j)
      (fun s1 q1 => matchSeq V s1 q1 fun _ q2 => some (q1, q2)) =
      some (p1, p1 + X.length)
    rw [matchSeq_lit_step L _ _ _ _
      (List.isPrefixOf_iff_prefix.mpr (List.prefix_append L _)),
      List.drop_left]
    refine segSpanB_walk segs u (X ++ R) (0 + j + L.length) _ _
      (segSpan_to_B segs u (X ++ R) hspan hwok
        (blockedHead_append_left CC.ws X R hXws hXne)) ?_
    show matchSeq V (X ++ R) (0 + j + L.length + u.length)
      (fun _ q2 => some (0 + j + L.length + u.length, q2)) =
      some (p1, p1 + X.length)
    refine hVcons R _ _ _ hVt ?_
    show some (0 + j + L.length + u.length,
      0 + j + L.length + u.length + X.length) = some (p1, p1 + X.length)
    rw [hp1]
  · intro i hji hile
    show matchTV (.lit L :: segAtoms segs) V
      ((s.take p1 ++ X ++ s.drop p2).drop i) (0 + i) = none
    have hilen : i ≤ j + L.length + u.length + X.length + R.length := by
      rw [hs'len] at hile; exact hile
    have hdi : (s.take p1 ++ X ++ s.drop p2).drop i =
        (L ++ (u ++ (X ++ R))).drop (i - j) := by
      have h0 : ((s.take j) ++ (L ++ (u ++ (X ++ R)))).drop
          ((s.take j).length + (i - j)) =
          (L ++ (u ++ (X ++ R))).drop (i - j) := by
        rw [List.drop_append]
      rw [hlenTake] at h0
      rw [show j + (i - j) = i by omega] at h0
      rw [hs']
      exact h0
    by_cases hc1 : i - j < L.length
    · have h2' : (L ++ (u ++ (X ++ R))).drop (i - j) =
          L.drop (i - j) ++ (u ++ (X ++ R)) :=
        List.drop_append_of_le_length (by omega)
      rw [hdi, h2']
      exact matchTV_none_of_not_prefix L _ V _ _
        (hself u R hspan hVt (i - j) (by omega) hc1)
    · by_cases hc2 : i - j < L.length + u.length + X.length
      · have hassoc : L ++ (u ++ (X ++ R)) = L ++ ((u ++ X) ++ R) := by
          simp [List.append_assoc]
        have h1' : (L ++ ((u ++ X) ++ R)).drop
            (L.length + (i - j - L.length)) =
            ((u ++ X) ++ R).drop (i - j - L.length) := by
          rw [List.drop_append]
        rw [show L.length + (i - j - L.length) = i - j by omega] at h1'
        have h2' : ((u ++ X) ++ R).drop (i - j - L.length) =
            (u ++ X).drop (i - j - L.length) ++ R :=
          List.drop_append_of_le_length
            (by simp only [List.length_append]; omega)
        rw [hdi, hassoc, h1', h2']
        exact matchTV_none_of_not_prefix L _ V _ _
          (hNR u R hspan hVt (i - j - L.length)
            (by simp only [List.length_append]; omega))
      · have hassoc : L ++ (u ++ (X ++ R)) = ((L ++ u) ++ X) ++ R := by
          simp [List.append_assoc]
        have hlen3 : ((L ++ u) ++ X).length =
            L.length + u.length + X.length := by
          simp only [List.length_append]
        have hdi3 : (s.take p1 ++ X ++ s.drop p2).drop i =
            R.drop (i - j - (L.length + u.length + X.length)) := by
          have h1' : (((L ++ u) ++ X) ++ R).drop
              (((L ++ u) ++ X).length +
                (i - j - (L.length + u.length + X.length))) =
              R.drop (i - j - (L.length + u.length + X.length)) := by
            rw [List.drop_append]
          rw [hlen3] at h1'
          rw [show L.length + u.length + X.length +
            (i - j - (L.length + u.length + X.length)) = i - j by omega] at h1'
          rw [hdi, hassoc]
          exact h1'
        have hs3 : s.drop (j + L.length + u.length + v.length +
            (i - j - (L.length + u.length + X.length))) =
            R.drop (i - j - (L.length + u.length + X.length)) := by
          have h1' : (((s.take j ++ (L ++ u)) ++ v) ++ R).drop
              (((s.take j ++ (L ++ u)) ++ v).length +
                (i - j - (L.length + u.length + X.length))) =
              R.drop (i - j - (L.length + u.length + X.length)) := by
            rw [List.drop_append]
          have hlp : ((s.take j ++ (L ++ u)) ++ v).length =
              j + L.length + u.length + v.length := by
            simp only [List.length_append, hlenTake]; omega
          rw [hlp] at h1'
          conv_lhs => rw [hs2]
          exact h1'
        have hnone := hmax (j + L.length + u.length + v.length +
            (i - j - (L.length + u.length + X.length)))
          (by omega) (by omega)
        have hnone' : matchTV (.lit L :: segAtoms segs) V
            (R.drop (i - j - (L.length + u.length + X.length)))
            (0 + (j + L.length + u.length + v.length +
              (i - j - (L.length + u.length + X.length)))) = none := by
          rw [← hs3]; exact hnone
        rw [hdi3]
        exact matchTV_none_shift _ _ hTnb hVnb _ _ _ hnone'

/-- Counterexample to claim C1: with the `.properties` pattern and target
version `1.2.3.4`, updating a file containing a matching `moduleVersion` line
and then validating against `1.2.3.4` fails — group 2 of the validate match
captures only `1.2.3`, which is not string-equal to `1.2.3.4`.  Round-trip
therefore does not hold for every target version X. -/
theorem C1_counterexample :
    (lineMatchPair
      ⟨"moduleVersion", "^[\\s\\S]*moduleVersion\\s*=\\s*", some "1.2.3.4", none⟩
      "moduleVersion = 1.2.3\n".data).isSome = true ∧
    process_file_version_validate
      [⟨"moduleVersion", "^[\\s\\S]*moduleVersion\\s*=\\s*", some "1.2.3.4", none⟩]
      (process_file_version_update
        [⟨"moduleVersion", "^[\\s\\S]*moduleVersion\\s*=\\s*", some "1.2.3.4", none⟩]
        ["moduleVersion = 1.2.3\n".data]) = false := by
  exact ⟨by decide, by decide⟩

/-- Counterexample to claim C8: updating to `1.2.3.4` is not idempotent —
the first update writes `moduleVersion = 1.2.3.4`, the second matches its
first three components and rewrites to `moduleVersion = 1.2.3.4.4`. -/
theorem C8_counterexample :
    process_file_version_update
      [⟨"moduleVersion", "^[\\s\\S]*moduleVersion\\s*=\\s*", some "1.2.3.4", none⟩]
      (process_file_version_update
        [⟨"moduleVersion", "^[\\s\\S]*moduleVersion\\s*=\\s*", some "1.2.3.4", none⟩]
        ["moduleVersion = 1.2.3\n".data]) ≠
    process_file_version_update
      [⟨"moduleVersion", "^[\\s\\S]*moduleVersion\\s*=\\s*", some "1.2.3.4", none⟩]
      ["moduleVersion = 1.2.3\n".data] := by
  decide

/-- Membership in a class gives disequality from any non-member. -/
theorem mem_ne_of_not_mem (C : CC) (c₀ : Char) (h : C.mem c₀ = false) :
    ∀ x, C.mem x = true → x ≠ c₀ := by
  intro x hx he
  rw [he, h] at hx
  cases hx

/-- A whitespace character differs from any non-whitespace character. -/
theorem ws_ne_of_not_ws (c₀ : Char) (h : wsChar c₀ = false) :
    ∀ x, wsChar x = true → x ≠ c₀ := by
  intro x hx he
  rw [he, h] at hx
  cases hx

/-- Prepending one character to a restart-free region. -/
theorem noRestart_single (L : List Char) (x : Char) (z R : List Char)
    (h : L.isPrefixOf (x :: (z ++ R)) = false) (h₂ : NoRestart L z R) :
    NoRestart L (x :: z) R := by
  intro i hi
  cases i with
  | zero => simpa using h
  | succ n =>
    have := h₂ n (by simpa using hi)
    simpa using this

/-- Composing restart-freeness over a consumed segment span: whitespace
runs, `litClean` literals and quote characters cannot host a restart of a
literal whose head is neither whitespace nor a quote. -/
theorem noRestart_segSpan (c₀ : Char) (L₁ : List Char)
    (hws : wsChar c₀ = false) (hq : CC.quote.mem c₀ = false) :
    ∀ (segs : List Seg) (u z R : List Char), SegSpan segs u →
      segsClean (c₀ :: L₁) segs = true →
      NoRestart (c₀ :: L₁) z R → NoRestart (c₀ :: L₁) (u ++ z) R := by
  intro segs
  induction segs with
  | nil =>
    intro u z R hs _ hz
    have hu : u = [] := hs
    subst hu
    simpa using hz
  | cons a rest ih =>
    cases a with
    | ws =>
      intro u z R hs hc hz
      obtain ⟨w, u', rfl, hw, hsp⟩ := hs
      rw [List.append_assoc]
      exact noRestart_chars_append c₀ L₁ w (u' ++ z) R
        (fun x hx => ws_ne_of_not_ws c₀ hws x (hw x hx))
        (ih u' z R hsp hc hz)
    | lit P =>
      intro u z R hs hc hz
      obtain ⟨u', rfl, hsp⟩ := hs
      have hcc : litClean (c₀ :: L₁) P = true ∧
          segsClean (c₀ :: L₁) rest = true := by
        simpa [segsClean, Bool.and_eq_true] using hc
      rw [List.append_assoc]
      exact noRestart_lit_clean (c₀ :: L₁) P (u' ++ z) R hcc.1
        (ih u' z R hsp hcc.2 hz)
    | qcls =>
      intro u z R hs hc hz
      obtain ⟨q, u', rfl, hqm, hsp⟩ := hs
      exact noRestart_chars_append c₀ L₁ [q] (u' ++ z) R
        (fun x hx => by
          rcases List.mem_singleton.mp hx with rfl
          exact mem_ne_of_not_mem CC.quote c₀ hq x hqm)
        (ih u' z R hsp hc hz)

/-- Every character of a dotted version triple is a first-component
character, a digit, or a dot. -/
theorem dotted_chars (first : CC) (X : List Char) (h : dottedTriple first X) :
    ∀ x ∈ X, first.mem x = true ∨ CC.digit.mem x = true ∨ x = '.' := by
  obtain ⟨a, b, c, rfl, hane, ha, hbne, hb, hcne, hc⟩ := h
  intro x hx
  rcases List.mem_append.mp hx with hx | hx
  · exact Or.inl (ha x hx)
  · rcases List.mem_cons.mp hx with rfl | hx
    · exact Or.inr (Or.inr rfl)
    · rcases List.mem_append.mp hx with hx | hx
      · exact Or.inr (Or.inl (hb x hx))
      · rcases List.mem_cons.mp hx with rfl | hx
        · exact Or.inr (Or.inr rfl)
        · exact Or.inr (Or.inl (hc x hx))

/-- A dotted version triple is nonempty. -/
theorem dotted_ne_nil (first : CC) (X : List Char)
    (h : dottedTriple first X) : X ≠ [] := by
  obtain ⟨a, b, c, rfl, _, _, _, _, _, _⟩ := h
  simp

/-- The head of a dotted version triple lies in the first-component class. -/
theorem dotted_head (first : CC) (X : List Char) (h : dottedTriple first X) :
    ∀ d, X.head? = some d → first.mem d = true := by
  obtain ⟨a, b, c, rfl, hane, ha, _, _, _, _⟩ := h
  intro d hd
  cases a with
  | nil => exact absurd rfl hane
  | cons x a' =>
    simp only [List.cons_append, List.head?_cons, Option.some.injEq] at hd
    rw [← hd]
    exact ha x (by simp)

/-- A two-character-headed literal cannot match where its first character
recurs but the following character differs. -/
theorem head2_not_prefix (c₀ c₁ : Char) (L₂ s : List Char) (d : Char)
    (hd : s.head? = some d) (hne : d ≠ c₁) :
    (c₀ :: c₁ :: L₂).isPrefixOf (c₀ :: s) = false := by
  apply not_prefix_of_getElem_ne _ _ 1 (by simp)
  cases s with
  | nil => cases hd
  | cons x s' =>
    simp only [List.head?_cons, Option.some.injEq] at hd
    subst hd
    simpa using hne

/-- Restart-freeness of a dotted version triple against a literal starting
`.c₁` where `c₁` is not a digit: every dot of the triple is followed by a
digit, so the literal cannot begin anywhere inside the triple. -/
theorem noRestart_dotted (c₁ : Char) (L₂ : List Char) (first : CC)
    (X R : List Char) (hfst : ∀ x, first.mem x = true → x ≠ '.')
    (hdd : ∀ x, CC.digit.mem x = true → x ≠ '.')
    (hd1 : ∀ x, CC.digit.mem x = true → x ≠ c₁)
    (hX : dottedTriple first X) : NoRestart ('.' :: c₁ :: L₂) X R := by
  obtain ⟨a, b, c, rfl, hane, ha, hbne, hb, hcne, hc⟩ := hX
  apply noRestart_chars_append '.' (c₁ :: L₂) a ('.' :: (b ++ '.' :: c)) R
    (fun x hx => hfst x (ha x hx))
  apply noRestart_single
  · cases b with
    | nil => exact absurd rfl hbne
    | cons d b' =>
      exact head2_not_prefix '.' c₁ L₂ _ d (by simp)
        (hd1 d (hb d (by simp)))
  · apply noRestart_chars_append '.' (c₁ :: L₂) b ('.' :: c) R
      (fun x hx => hdd x (hb x hx))
    apply noRestart_single
    · cases c with
      | nil => exact absurd rfl hcne
      | cons d c' =>
        exact head2_not_prefix '.' c₁ L₂ _ d (by simp)
          (hd1 d (hc d (by simp)))
    · exact noRestart_chars '.' (c₁ :: L₂) c R
        (fun x hx => hdd x (hc x hx))

/-- Restart-freeness for the standard catalog anchors: the leading literal's
head character is not whitespace, not a quote, restarts inside no literal
segment, and is neither a version character nor a dot. -/
theorem hNR_std (c₀ : Char) (L₁ : List Char) (segs : List Seg) (first : CC)
    (hws : wsChar c₀ = false) (hq : CC.quote.mem c₀ = false)
    (hcl : segsClean (c₀ :: L₁) segs = true)
    (hfc : first.mem c₀ = false) (hdc : CC.digit.mem c₀ = false)
    (hdot : c₀ ≠ '.') :
    ∀ u R X, SegSpan segs u → dottedTriple first X →
      NoRestart (c₀ :: L₁) (u ++ X) R := by
  intro u R X hsp hX
  refine noRestart_segSpan c₀ L₁ hws hq segs u X R hsp hcl ?_
  refine noRestart_chars c₀ L₁ X R ?_
  intro x hx
  rcases dotted_chars first X hX x hx with h | h | rfl
  · exact mem_ne_of_not_mem first c₀ hfc x h
  · exact mem_ne_of_not_mem CC.digit c₀ hdc x h
  · exact fun he => hdot he.symm

/-- Bounded self-cleanness: offsets below `n` cannot restart the literal. -/
theorem self_clean_below (L : List Char) (n : Nat)
    (hbf : borderFreeBelow L n = true) :
    ∀ i, 1 ≤ i → i < n → ∀ ext,
      L.isPrefixOf (L.drop i ++ ext) = false := by
  intro i h1 h2 ext
  obtain ⟨m, hmL, him, hne⟩ := (by simpa [borderFreeBelow] using hbf :
    ∀ i < n, 1 ≤ i →
      ∃ m < L.length, i + m < L.length ∧ L[i + m]? ≠ L[m]?)
    i h2 h1
  apply not_prefix_of_getElem_ne L _ m hmL
  rw [List.getElem?_append_left (by rw [List.length_drop]; omega), List.getElem?_drop]
  exact hne

/-- Update-mode handling of a line under a single pattern. -/
theorem updateLine_single (rp : RegexPattern) (a v : List Atom)
    (hA : anchorAtoms rp = some a) (hV : versionAtoms rp = some v)
    (line : List Char) :
    updateLine [rp] line =
      match pyMatchTwo a v line with
      | some _ => pySubTwo a v (pyStr rp.version).data line
      | none => line := by
  simp only [updateLine, List.foldl_cons, List.foldl_nil, hA, hV]

/-- Validation of a single-pattern file succeeds exactly when some line
matches with the expected version. -/
theorem validate_single (rp : RegexPattern) (content : List (List Char)) :
    process_file_version_validate [rp] content = true ↔
      ∃ line ∈ content, lineMatched rp line = true := by
  have hmem := mem_matchedPatterns rp [rp] content
  simp only [List.mem_singleton, true_and] at hmem
  unfold process_file_version_validate unmatchedPatterns
  rw [decide_eq_true_eq]
  by_cases hc : rp ∈ matchedPatterns [rp] content
  · refine ⟨fun _ => hmem.mp hc, fun _ => ?_⟩
    simp [List.filter, hc]
  · refine ⟨fun hfalse => ?_, fun hex => absurd (hmem.mpr hex) hc⟩
    exfalso
    rw [List.filter_cons, if_pos (by simp [hc]), List.filter_nil] at hfalse
    cases hfalse

/-- Core stability fact for one line: a match of a stable pattern survives
rewriting the version span with the pattern's version text, re-matching at
the same anchor end with group 2 capturing exactly the inserted text. -/
theorem stable_line (rp : RegexPattern) (L : List Char) (segs : List Seg)
    (V : List Atom) (VTail : List Char → Prop)
    (h : stableFor rp L segs V VTail) (line : List Char) (p1 p2 : Nat)
    (hm : lineMatchPair rp line = some (p1, p2)) :
    0 < p1 ∧ p1 ≤ p2 ∧ p2 ≤ line.length ∧
    lineMatchPair rp
      (line.take p1 ++ (pyStr rp.version).data ++ line.drop p2) =
      some (p1, p1 + (pyStr rp.version).data.length) := by
  obtain ⟨hA, hV, hL, hwok, hVnb, hVinv, hXne, hXws, hVcons, hNR, hself⟩ := h
  simp only [lineMatchPair, hA, hV] at hm ⊢
  exact anchored_stable L hL segs hwok V hVnb VTail hVinv _ hXne hXws hVcons
    hNR hself line p1 p2 hm

/-- A stable pattern with an expected version round-trips: updating any file
with a matching line and validating the result against the same version
succeeds. -/
theorem roundTrips_of_stable (rp : RegexPattern) (L : List Char)
    (segs : List Seg) (V : List Atom) (VTail : List Char → Prop)
    (h : stableFor rp L segs V VTail) (ver : String)
    (hver : rp.version = some ver) : roundTrips rp := by
  intro lines hex
  obtain ⟨line, hline, hsome⟩ := hex
  rw [validate_single]
  obtain ⟨pr, hpr⟩ := Option.isSome_iff_exists.mp hsome
  obtain ⟨p1, p2⟩ := pr
  obtain ⟨hp1, hp12, hp2len, hnew⟩ :=
    stable_line rp L segs V VTail h line p1 p2 hpr
  have hA := h.1
  have hV := h.2.1
  have hm' : pyMatchTwo (.bol :: .starC .any :: .lit L :: segAtoms segs) V
      line = some (p1, p2) := by
    simpa [lineMatchPair, hA, hV] using hpr
  have hup : updateLine [rp] line =
      line.take p1 ++ (pyStr rp.version).data ++ line.drop p2 := by
    rw [updateLine_single rp _ _ hA hV line, hm']
    exact pySubTwo_of_match _ V (pyStr rp.version).data line p1 p2 hm'
      (by omega)
  refine ⟨updateLine [rp] line, List.mem_map_of_mem _ hline, ?_⟩
  rw [hup, lineMatched_iff]
  refine ⟨p1, p1 + (pyStr rp.version).data.length, hnew, ?_⟩
  have hlen : (line.take p1).length = p1 := by
    rw [List.length_take]; omega
  have htk : (line.take p1 ++ (pyStr rp.version).data ++ line.drop p2).take
      (p1 + (pyStr rp.version).data.length) =
      line.take p1 ++ (pyStr rp.version).data := by
    have h0 := List.take_left (line.take p1 ++ (pyStr rp.version).data)
      (line.drop p2)
    have hl2 : (line.take p1 ++ (pyStr rp.version).data).length =
        p1 + (pyStr rp.version).data.length := by
      simp only [List.length_append, hlen]
    rw [hl2] at h0
    exact h0
  have hdr : (line.take p1 ++ (pyStr rp.version).data).drop p1 =
      (pyStr rp.version).data := by
    have h0 := List.drop_left (line.take p1) (pyStr rp.version).data
    rw [hlen] at h0
    exact h0
  rw [htk, hdr, hver]
  rfl

/-- A stable pattern is idempotent: a second update run over the output of
the first changes nothing. -/
theorem idempotent_of_stable (rp : RegexPattern) (L : List Char)
    (segs : List Seg) (V : List Atom) (VTail : List Char → Prop)
    (h : stableFor rp L segs V VTail) : idempotentFor rp := by
  have hA := h.1
  have hV := h.2.1
  have hline : ∀ line, updateLine [rp] (updateLine [rp] line) =
      updateLine [rp] line := by
    intro line
    cases hm : lineMatchPair rp line with
    | none =>
      have hm' : pyMatchTwo (.bol :: .starC .any :: .lit L :: segAtoms segs)
          V line = none := by
        simpa [lineMatchPair, hA, hV] using hm
      have hup : updateLine [rp] line = line := by
        rw [updateLine_single rp _ _ hA hV line, hm']
      rw [hup]
      exact hup
    | some pr =>
      obtain ⟨p1, p2⟩ := pr
      obtain ⟨hp1, hp12, hp2len, hnew⟩ :=
        stable_line rp L segs V VTail h line p1 p2 hm
      have hm' : pyMatchTwo (.bol :: .starC .any :: .lit L :: segAtoms segs)
          V line = some (p1, p2) := by
        simpa [lineMatchPair, hA, hV] using hm
      have hnew' : pyMatchTwo (.bol :: .starC .any :: .lit L :: segAtoms segs)
          V (line.take p1 ++ (pyStr rp.version).data ++ line.drop p2) =
          some (p1, p1 + (pyStr rp.version).data.length) := by
        simpa [lineMatchPair, hA, hV] using hnew
      have hup : updateLine [rp] line =
          line.take p1 ++ (pyStr rp.version).data ++ line.drop p2 := by
        rw [updateLine_single rp _ _ hA hV line, hm']
        exact pySubTwo_of_match _ V (pyStr rp.version).data line p1 p2 hm'
          (by omega)
      have hup2 : updateLine [rp]
          (line.take p1 ++ (pyStr rp.version).data ++ line.drop p2) =
          (line.take p1 ++ (pyStr rp.version).data ++ line.drop p2).take p1 ++
          (pyStr rp.version).data ++
          (line.take p1 ++ (pyStr rp.version).data ++ line.drop p2).drop
            (p1 + (pyStr rp.version).data.length) := by
        rw [updateLine_single rp _ _ hA hV _, hnew']
        exact pySubTwo_of_match _ V (pyStr rp.version).data _ p1
          (p1 + (pyStr rp.version).data.length) hnew' (by omega)
      have hlen : (line.take p1).length = p1 := by
        rw [List.length_take]; omega
      have htk : (line.take p1 ++ (pyStr rp.version).data ++
          line.drop p2).take p1 = line.take p1 := by
        have h0 := List.take_left (line.take p1)
          ((pyStr rp.version).data ++ line.drop p2)
        rw [hlen] at h0
        rw [List.append_assoc]
        exact h0
      have hdr : (line.take p1 ++ (pyStr rp.version).data ++
          line.drop p2).drop (p1 + (pyStr rp.version).data.length) =
          line.drop p2 := by
        have h0 := List.drop_left (line.take p1 ++ (pyStr rp.version).data)
          (line.drop p2)
        have hl2 : (line.take p1 ++ (pyStr rp.version).data).length =
            p1 + (pyStr rp.version).data.length := by
          simp only [List.length_append, hlen]
        rw [hl2] at h0
        exact h0
      rw [hup, hup2, htk, hdr]
  intro lines
  show (lines.map (updateLine [rp])).map (updateLine [rp]) =
    lines.map (updateLine [rp])
  induction lines with
  | nil => rfl
  | cons l ls ih =>
    simp only [List.map_cons, hline l]
    rw [ih]

/-- The six Python ASCII whitespace characters. -/
theorem ws_cases (x : Char) (h : wsChar x = true) :
    x = ' ' ∨ x = '\t' ∨ x = '\n' ∨ x = '\r' ∨ x = '\x0b' ∨ x = '\x0c' := by
  simpa [wsChar, or_assoc] using h

/-- Digits are not whitespace. -/
theorem digit_not_ws : ∀ x, CC.digit.mem x = true → wsChar x = false := by
  intro x hx
  cases hw : wsChar x
  · rfl
  · rcases ws_cases x hw with rfl | rfl | rfl | rfl | rfl | rfl <;>
      exact absurd hx (by decide)

/-- Nonzero digits are not whitespace. -/
theorem nonzero_not_ws : ∀ x, CC.nonzero.mem x = true → wsChar x = false := by
  intro x hx
  cases hw : wsChar x
  · rfl
  · rcases ws_cases x hw with rfl | rfl | rfl | rfl | rfl | rfl <;>
      exact absurd hx (by decide)

/-- Builder for `stableFor` at a dotted-triple version grammar: packages the
version-regex inversion and consumption lemmas, leaving the anchor equations
and restart-freeness to the per-pattern instances. -/
theorem stableFor_triple (rp : RegexPattern) (ver : String)
    (hver : rp.version = some ver)
    (L : List Char) (segs : List Seg) (first : CC)
    (hA : anchorAtoms rp =
      some (.bol :: .starC .any :: .lit L :: segAtoms segs))
    (hV : versionAtoms rp = some [.plusC first, .lit ['.'], .plusC .digit,
      .lit ['.'], .plusC .digit])
    (hL : L ≠ []) (hwok : wsOK segs = true)
    (hdotf : first.mem '.' = false)
    (hfw : ∀ x, first.mem x = true → wsChar x = false)
    (hX : dottedTriple first ver.data)
    (hNR : ∀ u R, SegSpan segs u → blockedHead CC.digit R →
      NoRestart L (u ++ ver.data) R)
    (hself : ∀ u R, SegSpan segs u → blockedHead CC.digit R →
      ∀ i, 1 ≤ i → i < L.length →
      L.isPrefixOf (L.drop i ++ (u ++ (ver.data ++ R))) = false) :
    stableFor rp L segs [.plusC first, .lit ['.'], .plusC .digit, .lit ['.'],
      .plusC .digit] (blockedHead CC.digit) := by
  have hXd : (pyStr rp.version).data = ver.data := by rw [hver]; rfl
  refine ⟨hA, hV, hL, hwok, by simp, ?_, ?_, ?_, ?_, ?_, ?_⟩
  · exact fun s pos k r hk hm => tripleV_inv first s pos k r hk hm
  · rw [hXd]
    exact dotted_ne_nil first ver.data hX
  · rw [hXd]
    intro d hd
    exact hfw d (dotted_head first ver.data hX d hd)
  · rw [hXd]
    intro R pos k r hVt hk
    obtain ⟨a, b, c, hXe, hane, ha, hbne, hb, hcne, hc⟩ := hX
    rw [hXe] at hk ⊢
    exact tripleV_consume first hdotf a b c ha hane hb hbne hc hcne R hVt
      pos k r hk
  · rw [hXd]
    exact hNR
  · rw [hXd]
    exact hself

/-- Builder for `stableFor` at the rest-of-line version grammar. -/
theorem stableFor_rest (rp : RegexPattern) (ver : String)
    (hver : rp.version = some ver)
    (L : List Char) (segs : List Seg)
    (hA : anchorAtoms rp =
      some (.bol :: .starC .any :: .lit L :: segAtoms segs))
    (hV : versionAtoms rp = some [.starC .notNl, .eol])
    (hL : L ≠ []) (hwok : wsOK segs = true)
    (hXne : ver.data ≠ [])
    (hnl : ∀ x ∈ ver.data, x ≠ '\n')
    (hXws : ∀ d, ver.data.head? = some d → wsChar d = false)
    (hNR : ∀ u R, SegSpan segs u → (R = [] ∨ R = ['\n']) →
      NoRestart L (u ++ ver.data) R)
    (hself : ∀ u R, SegSpan segs u → (R = [] ∨ R = ['\n']) →
      ∀ i, 1 ≤ i → i < L.length →
      L.isPrefixOf (L.drop i ++ (u ++ (ver.data ++ R))) = false) :
    stableFor rp L segs [.starC .notNl, .eol]
      (fun R => R = [] ∨ R = ['\n']) := by
  have hXd : (pyStr rp.version).data = ver.data := by rw [hver]; rfl
  refine ⟨hA, hV, hL, hwok, by simp, ?_, ?_, ?_, ?_, ?_, ?_⟩
  · intro s pos k r hk hm
    obtain ⟨v, R, he, hv, ht, hkk⟩ := restV_inv s pos k r hm
    exact ⟨v, R, he, ht, hkk⟩
  · rw [hXd]
    exact hXne
  · rw [hXd]
    exact hXws
  · rw [hXd]
    intro R pos k r hVt hk
    exact restV_consume ver.data R hnl hVt pos k r hk
  · rw [hXd]
    exact hNR
  · rw [hXd]
    exact hself

/-- Stability of the `.properties` extension pattern (`moduleVersion`). -/
theorem stable_properties (desc ver : String)
    (hX : dottedTriple CC.digit ver.data) :
    stableFor ⟨desc, "^[\\s\\S]*moduleVersion\\s*=\\s*", some ver, none⟩
      "moduleVersion".data [Seg.ws, Seg.lit ['='], Seg.ws]
      [.plusC .digit, .lit ['.'], .plusC .digit, .lit ['.'], .plusC .digit]
      (blockedHead CC.digit) := by
  refine stableFor_triple _ ver rfl _ _ CC.digit rfl rfl (by decide)
    (by decide) (by decide) digit_not_ws hX ?_ ?_
  · intro u R hsp hVt
    exact hNR_std 'm' "oduleVersion".data _ CC.digit (by decide) (by decide)
      (by decide) (by decide) (by decide) (by decide) u R ver.data hsp hX
  · intro u R _ _
    exact fun i h1 h2 =>
      self_clean_of_borderFree "moduleVersion".data (by decide) i h1 h2 _

/-- Stability of the Core-repo `properties_multi_module` pattern at the
representative library name `Core` (used by both catalogs). -/
theorem stable_core_properties (desc ver : String)
    (hX : dottedTriple CC.digit ver.data) :
    stableFor ⟨desc, gradle_properties_core_template "Core", some ver, none⟩
      "coreExtensionVersion".data [Seg.ws, Seg.lit ['='], Seg.ws]
      [.plusC .digit, .lit ['.'], .plusC .digit, .lit ['.'], .plusC .digit]
      (blockedHead CC.digit) := by
  refine stableFor_triple _ ver rfl _ _ CC.digit rfl rfl (by decide)
    (by decide) (by decide) digit_not_ws hX ?_ ?_
  · intro u R hsp hVt
    exact hNR_std 'c' "oreExtensionVersion".data _ CC.digit (by decide)
      (by decide) (by decide) (by decide) (by decide) (by decide)
      u R ver.data hsp hX
  · intro u R _ _
    exact fun i h1 h2 =>
      self_clean_of_borderFree "coreExtensionVersion".data (by decide) i h1 h2 _

/-- Stability of the `.java` extension pattern (`EXTENSION_VERSION`). -/
theorem stable_java (desc ver : String)
    (hX : dottedTriple CC.digit ver.data) :
    stableFor
      ⟨desc, "^[\\s\\S]*String EXTENSION_VERSION\\s*=\\s*\"", some ver, none⟩
      "String EXTENSION_VERSION".data
      [Seg.ws, Seg.lit ['='], Seg.ws, Seg.lit ['"']]
      [.plusC .digit, .lit ['.'], .plusC .digit, .lit ['.'], .plusC .digit]
      (blockedHead CC.digit) := by
  refine stableFor_triple _ ver rfl _ _ CC.digit rfl rfl (by decide)
    (by decide) (by decide) digit_not_ws hX ?_ ?_
  · intro u R hsp hVt
    exact hNR_std 'S' "tring EXTENSION_VERSION".data _ CC.digit (by decide)
      (by decide) (by decide) (by decide) (by decide) (by decide)
      u R ver.data hsp hX
  · intro u R _ _
    exact fun i h1 h2 =>
      self_clean_of_borderFree "String EXTENSION_VERSION".data (by decide)
        i h1 h2 _

/-- Stability of the `.kt` extension pattern (`const val VERSION`). -/
theorem stable_kt (desc ver : String)
    (hX : dottedTriple CC.digit ver.data) :
    stableFor
      ⟨desc, "^[\\s\\S]*const val VERSION\\s*=\\s*\"", some ver, none⟩
      "const val VERSION".data
      [Seg.ws, Seg.lit ['='], Seg.ws, Seg.lit ['"']]
      [.plusC .digit, .lit ['.'], .plusC .digit, .lit ['.'], .plusC .digit]
      (blockedHead CC.digit) := by
  refine stableFor_triple _ ver rfl _ _ CC.digit rfl rfl (by decide)
    (by decide) (by decide) digit_not_ws hX ?_ ?_
  · intro u R hsp hVt
    exact hNR_std 'c' "onst val VERSION".data _ CC.digit (by decide)
      (by decide) (by decide) (by decide) (by decide) (by decide)
      u R ver.data hsp hX
  · intro u R _ _
    exact fun i h1 h2 =>
      self_clean_of_borderFree "const val VERSION".data (by decide) i h1 h2 _

/-- Stability of the `.pbxproj` extension pattern (`MARKETING_VERSION`). -/
theorem stable_pbxproj (desc ver : String)
    (hX : dottedTriple CC.digit ver.data) :
    stableFor ⟨desc, "^[\\s\\S]*MARKETING_VERSION = ", some ver, none⟩
      "MARKETING_VERSION = ".data []
      [.plusC .digit, .lit ['.'], .plusC .digit, .lit ['.'], .plusC .digit]
      (blockedHead CC.digit) := by
  refine stableFor_triple _ ver rfl _ _ CC.digit rfl rfl (by decide)
    (by decide) (by decide) digit_not_ws hX ?_ ?_
  · intro u R hsp hVt
    exact hNR_std 'M' "ARKETING_VERSION = ".data _ CC.digit (by decide)
      (by decide) (by decide) (by decide) (by decide) (by decide)
      u R ver.data hsp hX
  · intro u R _ _
    exact fun i h1 h2 =>
      self_clean_of_borderFree "MARKETING_VERSION = ".data (by decide)
        i h1 h2 _

/-- Stability of the `.podspec` extension pattern (`s.version`). -/
theorem stable_podspec_version (desc ver : String)
    (hX : dottedTriple CC.digit ver.data) :
    stableFor ⟨desc, "^[\\s\\S]*s\\.version\\s*=\\s*\"", some ver, none⟩
      "s.version".data [Seg.ws, Seg.lit ['='], Seg.ws, Seg.lit ['"']]
      [.plusC .digit, .lit ['.'], .plusC .digit, .lit ['.'], .plusC .digit]
      (blockedHead CC.digit) := by
  refine stableFor_triple _ ver rfl _ _ CC.digit rfl rfl (by decide)
    (by decide) (by decide) digit_not_ws hX ?_ ?_
  · intro u R hsp hVt
    exact hNR_std 's' ".version".data _ CC.digit (by decide)
      (by decide) (by decide) (by decide) (by decide) (by decide)
      u R ver.data hsp hX
  · intro u R _ _
    exact fun i h1 h2 =>
      self_clean_of_borderFree "s.version".data (by decide) i h1 h2 _

/-- Stability of the `.swift` extension pattern (`EXTENSION_VERSION`). -/
theorem stable_swift (desc ver : String)
    (hX : dottedTriple CC.digit ver.data) :
    stableFor
      ⟨desc, "^[\\s\\S]*static let EXTENSION_VERSION\\s*=\\s*\"",
        some ver, none⟩
      "static let EXTENSION_VERSION".data
      [Seg.ws, Seg.lit ['='], Seg.ws, Seg.lit ['"']]
      [.plusC .digit, .lit ['.'], .plusC .digit, .lit ['.'], .plusC .digit]
      (blockedHead CC.digit) := by
  refine stableFor_triple _ ver rfl _ _ CC.digit rfl rfl (by decide)
    (by decide) (by decide) digit_not_ws hX ?_ ?_
  · intro u R hsp hVt
    exact hNR_std 's' "tatic let EXTENSION_VERSION".data _ CC.digit
      (by decide) (by decide) (by decide) (by decide) (by decide) (by decide)
      u R ver.data hsp hX
  · intro u R _ _
    exact fun i h1 h2 =>
      self_clean_of_borderFree "static let EXTENSION_VERSION".data (by decide)
        i h1 h2 _

/-- Stability of the `swift_version_number` pattern (`VERSION_NUMBER`). -/
theorem stable_swift_version_number (desc ver : String)
    (hX : dottedTriple CC.digit ver.data) :
    stableFor
      ⟨desc, "^[\\s\\S]*static let VERSION_NUMBER\\s*=\\s*\"", some ver, none⟩
      "static let VERSION_NUMBER".data
      [Seg.ws, Seg.lit ['='], Seg.ws, Seg.lit ['"']]
      [.plusC .digit, .lit ['.'], .plusC .digit, .lit ['.'], .plusC .digit]
      (blockedHead CC.digit) := by
  refine stableFor_triple _ ver rfl _ _ CC.digit rfl rfl (by decide)
    (by decide) (by decide) digit_not_ws hX ?_ ?_
  · intro u R hsp hVt
    exact hNR_std 's' "tatic let VERSION_NUMBER".data _ CC.digit
      (by decide) (by decide) (by decide) (by decide) (by decide) (by decide)
      u R ver.data hsp hX
  · intro u R _ _
    exact fun i h1 h2 =>
      self_clean_of_borderFree "static let VERSION_NUMBER".data (by decide)
        i h1 h2 _

/-- Stability of the Gradle dependency pattern at the representative
dependency name `AEPCore` (`mavenAEPCoreVersion`). -/
theorem stable_gradle_dep (desc ver : String)
    (hX : dottedTriple CC.digit ver.data) :
    stableFor ⟨desc, gradle_properties_template "AEPCore", some ver, none⟩
      "mavenAEPCoreVersion".data [Seg.ws, Seg.lit ['='], Seg.ws]
      [.plusC .digit, .lit ['.'], .plusC .digit, .lit ['.'], .plusC .digit]
      (blockedHead CC.digit) := by
  refine stableFor_triple _ ver rfl _ _ CC.digit rfl rfl (by decide)
    (by decide) (by decide) digit_not_ws hX ?_ ?_
  · intro u R hsp hVt
    exact hNR_std 'm' "avenAEPCoreVersion".data _ CC.digit (by decide)
      (by decide) (by decide) (by decide) (by decide) (by decide)
      u R ver.data hsp hX
  · intro u R _ _
    exact fun i h1 h2 =>
      self_clean_of_borderFree "mavenAEPCoreVersion".data (by decide)
        i h1 h2 _

/-- Stability of the CocoaPods dependency pattern at the representative
dependency name `AEPCore` (`s.dependency`). -/
theorem stable_podspec_dep (desc ver : String)
    (hX : dottedTriple CC.digit ver.data) :
    stableFor ⟨desc, podspec_template "AEPCore", some ver, none⟩
      "s.dependency".data
      [Seg.ws, Seg.qcls, Seg.lit "AEPCore".data, Seg.qcls, Seg.ws,
        Seg.lit [','], Seg.ws, Seg.qcls, Seg.lit ['>', '='], Seg.ws]
      [.plusC .digit, .lit ['.'], .plusC .digit, .lit ['.'], .plusC .digit]
      (blockedHead CC.digit) := by
  refine stableFor_triple _ ver rfl _ _ CC.digit rfl rfl (by decide)
    (by decide) (by decide) digit_not_ws hX ?_ ?_
  · intro u R hsp hVt
    exact hNR_std 's' ".dependency".data _ CC.digit (by decide)
      (by decide) (by decide) (by decide) (by decide) (by decide)
      u R ver.data hsp hX
  · intro u R _ _
    exact fun i h1 h2 =>
      self_clean_of_borderFree "s.dependency".data (by decide) i h1 h2 _

/-- Stability of the `swift_test_version` pattern (`"version"` key with the
strict test grammar): the only catalog literal with a border — its closing
quote — which cannot restart the anchor because the character after it is
whitespace, a colon, or a version digit, never a `v`. -/
theorem stable_swift_test (desc ver : String)
    (hX : dottedTriple CC.nonzero ver.data) :
    stableFor
      ⟨desc, "^[\\s\\S]*\\\"version\\\"\\s*:\\s*\"", some ver,
        some TEST_VERSION_REGEX⟩
      "\"version\"".data [Seg.ws, Seg.lit [':'], Seg.ws, Seg.lit ['"']]
      [.plusC .nonzero, .lit ['.'], .plusC .digit, .lit ['.'], .plusC .digit]
      (blockedHead CC.digit) := by
  refine stableFor_triple _ ver rfl _ _ CC.nonzero rfl rfl (by decide)
    (by decide) (by decide) nonzero_not_ws hX ?_ ?_
  · intro u R hsp hVt
    obtain ⟨w1, u1, rfl, hw1, hsp1⟩ := hsp
    obtain ⟨u2, rfl, hsp2⟩ := hsp1
    obtain ⟨w2, u3, rfl, hw2, hsp3⟩ := hsp2
    obtain ⟨u4, rfl, hsp4⟩ := hsp3
    have hu4 : u4 = [] := hsp4
    subst hu4
    show NoRestart ('"' :: "version\"".data)
      ((w1 ++ ([':'] ++ (w2 ++ (['"'] ++ [])))) ++ ver.data) R
    have hshape : (w1 ++ ([':'] ++ (w2 ++ (['"'] ++ [])))) ++ ver.data =
        w1 ++ ([':'] ++ (w2 ++ ('"' :: ver.data))) := by
      simp
    rw [hshape]
    apply noRestart_chars_append '"' "version\"".data w1 _ R
      (fun x hx => ws_ne_of_not_ws '"' (by decide) x (hw1 x hx))
    apply noRestart_chars_append '"' "version\"".data [':'] _ R
      (fun x hx => by
        rcases List.mem_singleton.mp hx with rfl
        decide)
    apply noRestart_chars_append '"' "version\"".data w2 _ R
      (fun x hx => ws_ne_of_not_ws '"' (by decide) x (hw2 x hx))
    apply noRestart_single
    · have hne := dotted_ne_nil CC.nonzero ver.data hX
      rcases hv : ver.data with _ | ⟨d, vd⟩
      · exact absurd hv hne
      · have hdm : CC.nonzero.mem d = true := by
          refine dotted_head CC.nonzero ver.data hX d ?_
          rw [hv]
          rfl
        exact head2_not_prefix '"' 'v' "ersion\"".data _ d (by simp)
          (mem_ne_of_not_mem CC.nonzero 'v' (by decide) d hdm)
    · refine noRestart_chars '"' "version\"".data ver.data R ?_
      intro x hx
      rcases dotted_chars CC.nonzero ver.data hX x hx with h | h | rfl
      · exact mem_ne_of_not_mem CC.nonzero '"' (by decide) x h
      · exact mem_ne_of_not_mem CC.digit '"' (by decide) x h
      · decide
  · intro u R hsp hVt i h1 h2
    by_cases hi : i < 8
    · exact self_clean_below "\"version\"".data 8 (by decide) i h1 hi _
    · have h9 : ("\"version\"".data).length = 9 := by decide
      have hi8 : i = 8 := by
        rw [h9] at h2
        omega
      subst hi8
      obtain ⟨w1, u1, rfl, hw1, hsp1⟩ := hsp
      obtain ⟨u2, rfl, hsp2⟩ := hsp1
      show ("\"version\"".data).isPrefixOf
        ((("\"version\"".data).drop 8) ++
          ((w1 ++ ([':'] ++ u2)) ++ (ver.data ++ R))) = false
      rw [show ("\"version\"".data).drop 8 = ['"'] from rfl]
      cases w1 with
      | nil =>
        exact head2_not_prefix '"' 'v' "ersion\"".data _ ':' (by simp)
          (by decide)
      | cons x w1' =>
        exact head2_not_prefix '"' 'v' "ersion\"".data _ x (by simp)
          (ws_ne_of_not_ws 'v' (by decide) x (hw1 x (by simp)))

/-- Stability of the Swift Package Manager dependency pattern at the
representative core dependency `AEPCore` (whose repository URL is the fixed
core URL): the leading literal `.package(` starts with a dot, but every dot
of the consumed span — in the escaped URL, in `.upToNextMajor(`, and in the
version triple — is followed by a character other than `p`. -/
theorem stable_spm (desc ver : String)
    (hX : dottedTriple CC.digit ver.data) :
    stableFor
      ⟨desc,
        templateSubst
          "^[\\s\\S]*\\.package\\(\\s*url:\\s*\"${dependency_url}\"\\s*,\\s*\\.upToNextMajor\\(\\s*from:\\s*\""
          (re_escape "https://github.com/adobe/aepsdk-core-ios.git"),
        some ver, none⟩
      ".package(".data
      [Seg.ws, Seg.lit "url:".data, Seg.ws,
        Seg.lit "\"https://github.com/adobe/aepsdk-core-ios.git\"".data,
        Seg.ws, Seg.lit [','], Seg.ws, Seg.lit ".upToNextMajor(".data,
        Seg.ws, Seg.lit "from:".data, Seg.ws, Seg.lit ['"']]
      [.plusC .digit, .lit ['.'], .plusC .digit, .lit ['.'], .plusC .digit]
      (blockedHead CC.digit) := by
  refine stableFor_triple _ ver rfl _ _ CC.digit rfl rfl (by decide)
    (by decide) (by decide) digit_not_ws hX ?_ ?_
  · intro u R hsp hVt
    show NoRestart ('.' :: "package(".data) (u ++ ver.data) R
    refine noRestart_segSpan '.' "package(".data (by decide) (by decide)
      _ u ver.data R hsp (by decide) ?_
    exact noRestart_dotted 'p' "ackage(".data CC.digit ver.data R
      (mem_ne_of_not_mem CC.digit '.' (by decide))
      (mem_ne_of_not_mem CC.digit '.' (by decide))
      (mem_ne_of_not_mem CC.digit 'p' (by decide)) hX
  · intro u R _ _
    exact fun i h1 h2 =>
      self_clean_of_borderFree ".package(".data (by decide) i h1 h2 _

/-- Stability of the `yml_uses` dependency pattern at the representative
action `actions/checkout`, for any replacement text that is nonempty, free
of newlines, does not start with whitespace, and does not contain a restart
of the anchor text `uses:`. -/
theorem stable_yml (desc ver : String)
    (hne : ver.data ≠ []) (hnl : ∀ x ∈ ver.data, x ≠ '\n')
    (hws : ∀ d, ver.data.head? = some d → wsChar d = false)
    (hnr : ∀ i, i < ver.data.length →
      ("uses:".data).isPrefixOf (ver.data.drop i ++ ['\n']) = false) :
    stableFor
      ⟨desc, yml_uses_template "actions/checkout", some ver,
        some REST_OF_LINE_REGEX⟩
      "uses:".data [Seg.ws, Seg.lit "actions/checkout@".data]
      [.starC .notNl, .eol] (fun R => R = [] ∨ R = ['\n']) := by
  refine stableFor_rest _ ver rfl _ _ rfl rfl (by decide) (by decide)
    hne hnl hws ?_ ?_
  · intro u R hsp hR
    show NoRestart ('u' :: "ses:".data) (u ++ ver.data) R
    refine noRestart_segSpan 'u' "ses:".data (by decide) (by decide)
      _ u ver.data R hsp (by decide) ?_
    intro i hi
    rcases hR with rfl | rfl
    · have h := hnr i hi
      by_contra hc
      rw [Bool.not_eq_false, List.append_nil] at hc
      obtain ⟨t, ht⟩ := List.isPrefixOf_iff_prefix.mp hc
      have h2 : ("uses:".data).isPrefixOf
          (ver.data.drop i ++ ['\n']) = true := by
        apply List.isPrefixOf_iff_prefix.mpr
        exact ⟨t ++ ['\n'], by rw [← List.append_assoc, ht]⟩
      rw [h2] at h
      cases h
    · exact hnr i hi
  · intro u R hsp hR
    exact fun i h1 h2 =>
      self_clean_of_borderFree "uses:".data (by decide) i h1 h2 _

/-- Claim C1 (corrected): round-trip — update to version X, then validate
against X — succeeds for every pattern type in the two catalogs (templated
types instantiated at a representative dependency name, the Core-repo
property type being shared by both catalogs), provided X lies in the
pattern's version grammar: a dotted triple of digit runs for the default
grammar, a dotted triple whose major component consists of nonzero digits
for the strict test grammar of `swift_test_version`, and for the
rest-of-line grammar of `yml_uses` any nonempty newline-free,
backslash-free text that neither starts with whitespace nor contains the
anchor text `uses:`.  Without the grammar restriction the round-trip fails
(see the counterexample). -/
theorem C1_roundtrip :
    (∀ desc ver, dottedTriple CC.digit ver.data →
      roundTrips ⟨desc, "^[\\s\\S]*moduleVersion\\s*=\\s*", some ver, none⟩) ∧
    (∀ desc ver, dottedTriple CC.digit ver.data →
      roundTrips ⟨desc, gradle_properties_core_template "Core",
        some ver, none⟩) ∧
    (∀ desc ver, dottedTriple CC.digit ver.data →
      roundTrips ⟨desc, "^[\\s\\S]*String EXTENSION_VERSION\\s*=\\s*\"",
        some ver, none⟩) ∧
    (∀ desc ver, dottedTriple CC.digit ver.data →
      roundTrips ⟨desc, "^[\\s\\S]*const val VERSION\\s*=\\s*\"",
        some ver, none⟩) ∧
    (∀ desc ver, dottedTriple CC.digit ver.data →
      roundTrips ⟨desc, "^[\\s\\S]*MARKETING_VERSION = ", some ver, none⟩) ∧
    (∀ desc ver, dottedTriple CC.digit ver.data →
      roundTrips ⟨desc, "^[\\s\\S]*s\\.version\\s*=\\s*\"",
        some ver, none⟩) ∧
    (∀ desc ver, dottedTriple CC.digit ver.data →
      roundTrips ⟨desc, "^[\\s\\S]*static let EXTENSION_VERSION\\s*=\\s*\"",
        some ver, none⟩) ∧
    (∀ desc ver, dottedTriple CC.digit ver.data →
      roundTrips ⟨desc, "^[\\s\\S]*static let VERSION_NUMBER\\s*=\\s*\"",
        some ver, none⟩) ∧
    (∀ desc ver, dottedTriple CC.nonzero ver.data →
      roundTrips ⟨desc, "^[\\s\\S]*\\\"version\\\"\\s*:\\s*\"", some ver,
        some TEST_VERSION_REGEX⟩) ∧
    (∀ desc ver, dottedTriple CC.digit ver.data →
      roundTrips ⟨desc, gradle_properties_template "AEPCore",
        some ver, none⟩) ∧
    (∀ desc pat ver, swift_spm_template "AEPCore" = Except.ok pat →
      dottedTriple CC.digit ver.data →
      roundTrips ⟨desc, pat, some ver, none⟩) ∧
    (∀ desc ver, dottedTriple CC.digit ver.data →
      roundTrips ⟨desc, podspec_template "AEPCore", some ver, none⟩) ∧
    (∀ desc ver, ver.data ≠ [] → (∀ x ∈ ver.data, x ≠ '\n') →
      (∀ d, ver.data.head? = some d → wsChar d = false) →
      (∀ i, i < ver.data.length →
        ("uses:".data).isPrefixOf (ver.data.drop i ++ ['\n']) = false) →
      noBackslash ver = true →
      roundTrips ⟨desc, yml_uses_template "actions/checkout", some ver,
        some REST_OF_LINE_REGEX⟩) := by
  refine ⟨?_, ?_, ?_, ?_, ?_, ?_, ?_, ?_, ?_, ?_, ?_, ?_, ?_⟩
  · exact fun desc ver hX =>
      roundTrips_of_stable _ _ _ _ _ (stable_properties desc ver hX) ver rfl
  · exact fun desc ver hX =>
      roundTrips_of_stable _ _ _ _ _ (stable_core_properties desc ver hX)
        ver rfl
  · exact fun desc ver hX =>
      roundTrips_of_stable _ _ _ _ _ (stable_java desc ver hX) ver rfl
  · exact fun desc ver hX =>
      roundTrips_of_stable _ _ _ _ _ (stable_kt desc ver hX) ver rfl
  · exact fun desc ver hX =>
      roundTrips_of_stable _ _ _ _ _ (stable_pbxproj desc ver hX) ver rfl
  · exact fun desc ver hX =>
      roundTrips_of_stable _ _ _ _ _ (stable_podspec_version desc ver hX)
        ver rfl
  · exact fun desc ver hX =>
      roundTrips_of_stable _ _ _ _ _ (stable_swift desc ver hX) ver rfl
  · exact fun desc ver hX =>
      roundTrips_of_stable _ _ _ _ _
        (stable_swift_version_number desc ver hX) ver rfl
  · exact fun desc ver hX =>
      roundTrips_of_stable _ _ _ _ _ (stable_swift_test desc ver hX) ver rfl
  · exact fun desc ver hX =>
      roundTrips_of_stable _ _ _ _ _ (stable_gradle_dep desc ver hX) ver rfl
  · intro desc pat ver hpat hX
    have h0 : swift_spm_template "AEPCore" = Except.ok (templateSubst
        "^[\\s\\S]*\\.package\\(\\s*url:\\s*\"${dependency_url}\"\\s*,\\s*\\.upToNextMajor\\(\\s*from:\\s*\""
        (re_escape "https://github.com/adobe/aepsdk-core-ios.git")) := rfl
    rw [h0] at hpat
    injection hpat with h1
    subst h1
    exact roundTrips_of_stable _ _ _ _ _ (stable_spm desc ver hX) ver rfl
  · exact fun desc ver hX =>
      roundTrips_of_stable _ _ _ _ _ (stable_podspec_dep desc ver hX) ver rfl
  · exact fun desc ver h1 h2 h3 h4 _ =>
      roundTrips_of_stable _ _ _ _ _ (stable_yml desc ver h1 h2 h3 h4) ver rfl

/-- Witness for C1: updating `moduleVersion = 1.0.0` to `1.2.3` and
validating the result against `1.2.3` succeeds. -/
theorem C1_roundtrip_witness :
    process_file_version_validate
      [⟨"moduleVersion", "^[\\s\\S]*moduleVersion\\s*=\\s*",
        some "1.2.3", none⟩]
      (process_file_version_update
        [⟨"moduleVersion", "^[\\s\\S]*moduleVersion\\s*=\\s*",
          some "1.2.3", none⟩]
        ["moduleVersion = 1.0.0\n".data]) = true :=
  C1_roundtrip.1 "moduleVersion" "1.2.3"
    ⟨['1'], ['2'], ['3'], rfl, by decide, by decide, by decide, by decide,
      by decide, by decide⟩
    ["moduleVersion = 1.0.0\n".data]
    ⟨"moduleVersion = 1.0.0\n".data, List.mem_singleton.mpr rfl, by decide⟩

/-- Claim C8 (corrected): idempotence — a second update run with the same
version over the output of the first changes nothing — holds for every
pattern type in the two catalogs (templated types instantiated at a
representative dependency name), provided the target version lies in the
pattern's version grammar, with the same grammar conditions as the
round-trip fact.  Without the grammar restriction idempotence fails (see
the counterexample). -/
theorem C8_idempotence :
    (∀ desc ver, dottedTriple CC.digit ver.data →
      idempotentFor ⟨desc, "^[\\s\\S]*moduleVersion\\s*=\\s*",
        some ver, none⟩) ∧
    (∀ desc ver, dottedTriple CC.digit ver.data →
      idempotentFor ⟨desc, gradle_properties_core_template "Core",
        some ver, none⟩) ∧
    (∀ desc ver, dottedTriple CC.digit ver.data →
      idempotentFor ⟨desc, "^[\\s\\S]*String EXTENSION_VERSION\\s*=\\s*\"",
        some ver, none⟩) ∧
    (∀ desc ver, dottedTriple CC.digit ver.data →
      idempotentFor ⟨desc, "^[\\s\\S]*const val VERSION\\s*=\\s*\"",
        some ver, none⟩) ∧
    (∀ desc ver, dottedTriple CC.digit ver.data →
      idempotentFor ⟨desc, "^[\\s\\S]*MARKETING_VERSION = ",
        some ver, none⟩) ∧
    (∀ desc ver, dottedTriple CC.digit ver.data →
      idempotentFor ⟨desc, "^[\\s\\S]*s\\.version\\s*=\\s*\"",
        some ver, none⟩) ∧
    (∀ desc ver, dottedTriple CC.digit ver.data →
      idempotentFor
        ⟨desc, "^[\\s\\S]*static let EXTENSION_VERSION\\s*=\\s*\"",
          some ver, none⟩) ∧
    (∀ desc ver, dottedTriple CC.digit ver.data →
      idempotentFor ⟨desc, "^[\\s\\S]*static let VERSION_NUMBER\\s*=\\s*\"",
        some ver, none⟩) ∧
    (∀ desc ver, dottedTriple CC.nonzero ver.data →
      idempotentFor ⟨desc, "^[\\s\\S]*\\\"version\\\"\\s*:\\s*\"", some ver,
        some TEST_VERSION_REGEX⟩) ∧
    (∀ desc ver, dottedTriple CC.digit ver.data →
      idempotentFor ⟨desc, gradle_properties_template "AEPCore",
        some ver, none⟩) ∧
    (∀ desc pat ver, swift_spm_template "AEPCore" = Except.ok pat →
      dottedTriple CC.digit ver.data →
      idempotentFor ⟨desc, pat, some ver, none⟩) ∧
    (∀ desc ver, dottedTriple CC.digit ver.data →
      idempotentFor ⟨desc, podspec_template "AEPCore", some ver, none⟩) ∧
    (∀ desc ver, ver.data ≠ [] → (∀ x ∈ ver.data, x ≠ '\n') →
      (∀ d, ver.data.head? = some d → wsChar d = false) →
      (∀ i, i < ver.data.length →
        ("uses:".data).isPrefixOf (ver.data.drop i ++ ['\n']) = false) →
      noBackslash ver = true →
      idempotentFor ⟨desc, yml_uses_template "actions/checkout", some ver,
        some REST_OF_LINE_REGEX⟩) := by
  refine ⟨?_, ?_, ?_, ?_, ?_, ?_, ?_, ?_, ?_, ?_, ?_, ?_, ?_⟩
  · exact fun desc ver hX =>
      idempotent_of_stable _ _ _ _ _ (stable_properties desc ver hX)
  · exact fun desc ver hX =>
      idempotent_of_stable _ _ _ _ _ (stable_core_properties desc ver hX)
  · exact fun desc ver hX =>
      idempotent_of_stable _ _ _ _ _ (stable_java desc ver hX)
  · exact fun desc ver hX =>
      idempotent_of_stable _ _ _ _ _ (stable_kt desc ver hX)
  · exact fun desc ver hX =>
      idempotent_of_stable _ _ _ _ _ (stable_pbxproj desc ver hX)
  · exact fun desc ver hX =>
      idempotent_of_stable _ _ _ _ _ (stable_podspec_version desc ver hX)
  · exact fun desc ver hX =>
      idempotent_of_stable _ _ _ _ _ (stable_swift desc ver hX)
  · exact fun desc ver hX =>
      idempotent_of_stable _ _ _ _ _
        (stable_swift_version_number desc ver hX)
  · exact fun desc ver hX =>
      idempotent_of_stable _ _ _ _ _ (stable_swift_test desc ver hX)
  · exact fun desc ver hX =>
      idempotent_of_stable _ _ _ _ _ (stable_gradle_dep desc ver hX)
  · intro desc pat ver hpat hX
    have h0 : swift_spm_template "AEPCore" = Except.ok (templateSubst
        "^[\\s\\S]*\\.package\\(\\s*url:\\s*\"${dependency_url}\"\\s*,\\s*\\.upToNextMajor\\(\\s*from:\\s*\""
        (re_escape "https://github.com/adobe/aepsdk-core-ios.git")) := rfl
    rw [h0] at hpat
    injection hpat with h1
    subst h1
    exact idempotent_of_stable _ _ _ _ _ (stable_spm desc ver hX)
  · exact fun desc ver hX =>
      idempotent_of_stable _ _ _ _ _ (stable_podspec_dep desc ver hX)
  · exact fun desc ver h1 h2 h3 h4 _ =>
      idempotent_of_stable _ _ _ _ _ (stable_yml desc ver h1 h2 h3 h4)

/-- Witness for C8: a second update of `moduleVersion = 1.0.0` to `1.2.3`
changes nothing. -/
theorem C8_idempotence_witness :
    process_file_version_update
      [⟨"moduleVersion", "^[\\s\\S]*moduleVersion\\s*=\\s*",
        some "1.2.3", none⟩]
      (process_file_version_update
        [⟨"moduleVersion", "^[\\s\\S]*moduleVersion\\s*=\\s*",
          some "1.2.3", none⟩]
        ["moduleVersion = 1.0.0\n".data]) =
    process_file_version_update
      [⟨"moduleVersion", "^[\\s\\S]*moduleVersion\\s*=\\s*",
        some "1.2.3", none⟩]
      ["moduleVersion = 1.0.0\n".data] :=
  C8_idempotence.1 "moduleVersion" "1.2.3"
    ⟨['1'], ['2'], ['3'], rfl, by decide, by decide, by decide, by decide,
      by decide, by decide⟩
    ["moduleVersion = 1.0.0\n".data]

end Versions
